import Mathlib

/-!
Verification development for the `tg-archive` static-site publishing pipeline
(`tgarchive/build.py`, `tgarchive/build1.py`, `tgarchive/telegram_format.py`).

The Python source is shallowly embedded: pure functions become Lean functions,
the `while True` pagination loops become fuel-indexed structural recursions
(the fuel `msgs.length + 1` is provably sufficient: every iteration consumes at
least one message id), Python dicts become `Nat → Option String` /
`String → Option String` maps with explicit update, and the fallible external
markdown renderer becomes an `Option`-returning parameter.
-/

namespace TgArchive

/-- A stored chat message, as read from the external message store
(`db.Message`): numeric identity, textual content, optional author username,
ISO-formatted timestamp and the day slug `strftime("%Y-%m-%d")`. -/
structure Message where
  id : Nat
  content : String
  user : Option String
  dateIso : String
  daySlug : String
deriving DecidableEq, Inhabited

/-- A month bucket (`db.Month`): its slug and the ordered sequence of messages
belonging to it, owned by the external store. -/
structure Month where
  slug : String
  msgs : List Message
deriving DecidableEq, Inhabited

/-- Modelled from the spec: the message store's paging query
`get_messages(year, month, last_id, limit)` (the `db` module is outside the
embedded sources; §6 specifies it as "ordered Message[] ascending identity,
empty result signals end of bucket", returning messages with identity strictly
greater than `last_id`, at most `limit` of them). -/
def getMessages (msgs : List Message) (lastId limitN : Nat) : List Message :=
  (msgs.filter (fun m => lastId < m.id)).take limitN

/-- Stable insertion of a message into a list, keeping earlier equal-id
elements first: the building block of the stable by-id sort below. -/
def insertById (m : Message) : List Message → List Message
  | [] => [m]
  | x :: xs => if x.id ≤ m.id then x :: insertById m xs else m :: x :: xs

/-- `messages.sort(key=lambda x: x.id)` — Python's sort is stable; any stable
sort by the id key is extensionally the same function, embedded here as a
stable insertion sort. -/
def sortById (l : List Message) : List Message :=
  l.foldr insertById []

/-- `Build.make_filename`: `month.slug + ("_" + page if page > 1 else "") + ".html"`. -/
def makeFilename (mo : Month) (page : Nat) : String :=
  mo.slug ++ (if page > 1 then "_" ++ toString page else "") ++ ".html"

/-- The `while True` pagination loop of `Build._scan_timeline` (build.py,
resolution pass), returning the sequence of `(filename, sorted messages)`
pages of one month.  The loop state is `(last_id, page)`; `fuel` bounds the
iteration count (any value above the number of pending messages is exact). -/
def scanMonthLoop (pp : Nat) (mo : Month) : Nat → Nat → Nat → List (String × List Message)
  | 0, _, _ => []
  | fuel + 1, lastId, page =>
    let messages := getMessages mo.msgs lastId pp
    if messages.isEmpty then []
    else
      let sorted := sortById messages
      (makeFilename mo (page + 1), sorted) ::
        scanMonthLoop pp mo fuel (sorted.getLastD default).id (page + 1)

/-- The pages visited by the resolution pass (`Build._scan_timeline`) for one
month: the loop started at `last_id = 0`, `page = 0`. -/
def scanMonthPages (pp : Nat) (mo : Month) : List (String × List Message) :=
  scanMonthLoop pp mo (mo.msgs.length + 1) 0 0

/-- The `while True` pagination loop of `Build.build` (build.py, render pass):
textually a separate loop in the source, embedded separately so that the
agreement of the two passes is a theorem, not a definition. -/
def renderMonthLoop (pp : Nat) (mo : Month) : Nat → Nat → Nat → List (String × List Message)
  | 0, _, _ => []
  | fuel + 1, lastId, page =>
    let messages := getMessages mo.msgs lastId pp
    if messages.isEmpty then []
    else
      let sorted := sortById messages
      (makeFilename mo (page + 1), sorted) ::
        renderMonthLoop pp mo fuel (sorted.getLastD default).id (page + 1)

/-- The pages rendered by `Build.build` (build.py) for one month. -/
def renderMonthPages (pp : Nat) (mo : Month) : List (String × List Message) :=
  renderMonthLoop pp mo (mo.msgs.length + 1) 0 0

/-- The pagination loop of `Build._collect_page_ids` (build1.py): identical,
except that the batch is *not* re-sorted — `last_id = messages[-1].id` is taken
from the store order. -/
def collectMonthLoop (pp : Nat) (mo : Month) : Nat → Nat → Nat → List (String × List Message)
  | 0, _, _ => []
  | fuel + 1, lastId, page =>
    let messages := getMessages mo.msgs lastId pp
    if messages.isEmpty then []
    else
      (makeFilename mo (page + 1), messages) ::
        collectMonthLoop pp mo fuel (messages.getLastD default).id (page + 1)

/-- The pages visited by `Build._collect_page_ids` (build1.py) for one month. -/
def collectMonthPages (pp : Nat) (mo : Month) : List (String × List Message) :=
  collectMonthLoop pp mo (mo.msgs.length + 1) 0 0

/-- All pages of the resolution pass across the timeline, in visit order. -/
def scanAllPages (pp : Nat) (tl : List Month) : List (String × List Message) :=
  tl.flatMap (fun mo => scanMonthPages pp mo)

/-- All pages of the render pass across the timeline, in render order. -/
def renderAllPages (pp : Nat) (tl : List Month) : List (String × List Message) :=
  tl.flatMap (fun mo => renderMonthPages pp mo)

/-- `self.page_ids[m.id] = fname`: Python dict assignment on the id map. -/
def updPage (d : Nat → Option String) (k : Nat) (v : String) : Nat → Option String :=
  fun k' => if k' = k then some v else d k'

/-- `self.day_to_page[slug] = fname`: Python dict assignment on the day map. -/
def updDay (d : String → Option String) (k : String) (v : String) : String → Option String :=
  fun k' => if k' = k then some v else d k'

/-- The per-message body of `Build._scan_timeline` (build.py): unconditionally
record the page filename for the message id; record it for the message's day
slug only if that slug is absent. -/
def scanPageStep (acc : (Nat → Option String) × (String → Option String))
    (fname : String) (m : Message) :
    (Nat → Option String) × (String → Option String) :=
  (updPage acc.1 m.id fname,
    if acc.2 m.daySlug = none then updDay acc.2 m.daySlug fname else acc.2)

/-- `Build._scan_timeline` (build.py): the resolution pass over the whole
timeline, producing `(page_ids, day_to_page)`.  The pagination itself does not
read the two maps, so the pass is the page traversal followed by the
per-message map updates in visit order. -/
def scanTimelineMaps (pp : Nat) (tl : List Month) :
    (Nat → Option String) × (String → Option String) :=
  tl.foldl
    (fun acc mo =>
      (scanMonthPages pp mo).foldl
        (fun acc' pg => pg.2.foldl (fun a m => scanPageStep a pg.1 m) acc') acc)
    (fun _ => none, fun _ => none)

/-- All messages held by the store across the timeline. -/
def storeMsgs (tl : List Month) : List Message :=
  tl.flatMap Month.msgs

/-- Strict ordering of messages by identity (the store's sort key). -/
def IdLt (a b : Message) : Prop := a.id < b.id

instance : DecidableRel IdLt := by
  intro a b
  unfold IdLt
  infer_instance

/-- The store contract for one month bucket: ids strictly ascending (identity
is the unique sort key) and positive (the loops start at `last_id = 0`). -/
def MonthOk (mo : Month) : Prop :=
  List.Pairwise IdLt mo.msgs ∧ ∀ m ∈ mo.msgs, 0 < m.id

instance : DecidablePred MonthOk := by
  intro mo
  unfold MonthOk
  infer_instance

/-- One entry of `search.json` as assembled by `Build._build_search_index`
(build.py): id, author username (or `""`), ISO date, trimmed raw text,
rendered html, and `url = page_ids.get(id, "") + "#" + id`. -/
structure SearchRecord where
  id : Nat
  user : String
  date : String
  text : String
  html : String
  url : String
deriving DecidableEq, Inhabited

/-- The per-message record assembly of `Build._build_search_index`:
`raw = (msg.content or "").strip(); if not raw: continue; ...`.  The external
CommonMark rendering `self._markdown` is the parameter `md`. -/
def searchRecordOf (md : String → String) (pageIds : Nat → Option String)
    (msg : Message) : Option SearchRecord :=
  let raw := msg.content.trim
  if raw = "" then none
  else
    some
      { id := msg.id
        user := msg.user.getD ""
        date := msg.dateIso
        text := raw
        html := md raw
        url := (pageIds msg.id).getD "" ++ "#" ++ toString msg.id }

/-- The `while True` pagination loop of `Build._build_search_index` (build.py):
the same store traversal (filter past `last_id`, take `per_page`, sort by id),
appending one record per non-blank message. -/
def searchMonthLoop (md : String → String) (pageIds : Nat → Option String)
    (pp : Nat) (mo : Month) : Nat → Nat → List SearchRecord
  | 0, _ => []
  | fuel + 1, lastId =>
    let msgs := getMessages mo.msgs lastId pp
    if msgs.isEmpty then []
    else
      let sorted := sortById msgs
      sorted.filterMap (searchRecordOf md pageIds) ++
        searchMonthLoop md pageIds pp mo fuel (sorted.getLastD default).id

/-- `Build._build_search_index` (build.py): the flat record sequence written to
`search.json`, in encounter order over the whole timeline. -/
def buildSearchIndex (md : String → String) (pageIds : Nat → Option String)
    (pp : Nat) (tl : List Month) : List SearchRecord :=
  tl.flatMap (fun mo => searchMonthLoop md pageIds pp mo (mo.msgs.length + 1) 0)

/-- The last `cap` elements of a list: the contents of a Python
`deque(maxlen=cap)` after pushing the whole list through it. -/
def lastWindow (cap : Nat) (l : List Message) : List Message :=
  l.drop (l.length - cap)

/-- `rss_entries.extend(messages)` on `deque([], maxlen=cap)`: elements are
appended one by one, the oldest evicted from the left once `cap` is exceeded,
which leaves the last `cap` elements of the concatenation. -/
def dequeExtend (cap : Nat) (w batch : List Message) : List Message :=
  lastWindow cap (w ++ batch)

/-- The feed window accumulated by `Build.build` (build.py): starting from the
empty deque, every rendered page's message batch is extended in render order. -/
def feedAccum (cap : Nat) (batches : List (List Message)) : List Message :=
  batches.foldl (dequeExtend cap) []

/-- The `rss_entries` deque contents at the end of the render pass of
`Build.build` (build.py), with `cap = config["rss_feed_entries"]`. -/
def rssEntries (pp cap : Nat) (tl : List Month) : List Message :=
  feedAccum cap ((renderAllPages pp tl).map (·.2))

/-- Filesystem effects performed by the publish-directory preparation. -/
inductive FsOp where
  | rmtree (path : String)
  | mkdir (path : String)
deriving DecidableEq

/-- `Build._create_publish_dir` of build.py: `pubdir = config["publish_dir"]`;
if it exists, `shutil.rmtree(pubdir)`; then `os.mkdir(pubdir)`.  There is no
safety check of any kind.  (The subsequent static/media materialization is
outside the directory-reset contract modelled here.) -/
def createPublishDirV2 (pubdir : String) (pubdirExists : Bool) :
    Except String (List FsOp) :=
  Except.ok ((if pubdirExists then [FsOp.rmtree pubdir] else []) ++ [FsOp.mkdir pubdir])

/-- `Build._create_publish_dir` of build1.py: `pubdir = abspath(publish_dir)`;
`if pubdir in ("/", expanduser("~")): raise RuntimeError(...)`; otherwise
rmtree-if-exists then mkdir.  `pubdirAbs` is the already-resolved absolute
path and `home` the expansion of `~`. -/
def createPublishDirV1 (pubdirAbs home : String) (pubdirExists : Bool) :
    Except String (List FsOp) :=
  if pubdirAbs = "/" ∨ pubdirAbs = home then
    Except.error ("Refusing to delete dangerous directory: " ++ pubdirAbs)
  else
    Except.ok ((if pubdirExists then [FsOp.rmtree pubdirAbs] else []) ++ [FsOp.mkdir pubdirAbs])

end TgArchive

namespace TelegramFormatter

/-- `html.escape(text)` (quote=True): `&`, `<`, `>`, `"`, `'` become entities;
`&` is replaced first, so the whole pass is the character-wise map below. -/
def escapeList : List Char → List Char
  | [] => []
  | c :: cs =>
    (if c = '&' then "&amp;".data
     else if c = '<' then "&lt;".data
     else if c = '>' then "&gt;".data
     else if c = '"' then "&quot;".data
     else if c = '\'' then "&#x27;".data
     else [c]) ++ escapeList cs

/-- One `re.sub` pass for a single-character marker pair `m(...)m` with a lazy
body (`BOLD`, `ITALIC`, `STRIKE`, `INLINE_CODE`).  The scan state carries the
body collected (reversed) since an unclosed opening marker.  `noNl` is the
default-`.` behaviour (a newline aborts the candidate match); `nonEmpty`
demands a non-empty body (`INLINE_CODE`'s `[^`]+`).  The replacement wraps the
body in `lw`/`rw`.  Matching is leftmost, non-overlapping, with the close at
the first later marker — exactly Python's lazy `m(.*?)m` scan. -/
def subPairGo (m : Char) (noNl nonEmpty : Bool) (lw rw : List Char) :
    Option (List Char) → List Char → List Char
  | none, [] => []
  | none, c :: rest =>
    if c = m then subPairGo m noNl nonEmpty lw rw (some []) rest
    else c :: subPairGo m noNl nonEmpty lw rw none rest
  | some acc, [] => m :: acc.reverse
  | some acc, c :: rest =>
    if c = m then
      if nonEmpty && acc.isEmpty then m :: subPairGo m noNl nonEmpty lw rw (some []) rest
      else lw ++ acc.reverse ++ rw ++ subPairGo m noNl nonEmpty lw rw none rest
    else if noNl && c = '\n' then
      m :: acc.reverse ++ c :: subPairGo m noNl nonEmpty lw rw none rest
    else subPairGo m noNl nonEmpty lw rw (some (c :: acc)) rest

/-- The `UNDERLINE` pass `__(.*?)__` → `<u>\1</u>`: like `subPairGo` but with
the two-character marker `__`; the close is the first later pair of adjacent
underscores, a newline aborts the candidate. -/
def subUUGo : Option (List Char) → List Char → List Char
  | none, [] => []
  | none, [c] => [c]
  | none, c1 :: c2 :: rest =>
    if c1 = '_' ∧ c2 = '_' then subUUGo (some []) rest
    else c1 :: subUUGo none (c2 :: rest)
  | some acc, [] => '_' :: '_' :: acc.reverse
  | some acc, [c] => '_' :: '_' :: acc.reverse ++ [c]
  | some acc, c1 :: c2 :: rest =>
    if c1 = '_' ∧ c2 = '_' then
      "<u>".data ++ acc.reverse ++ "</u>".data ++ subUUGo none rest
    else if c1 = '\n' then
      '_' :: '_' :: acc.reverse ++ c1 :: subUUGo none (c2 :: rest)
    else subUUGo (some (c1 :: acc)) (c2 :: rest)

/-- `TelegramFormatter.convert`: escape HTML, then apply the UNDERLINE, BOLD,
ITALIC, STRIKE and INLINE_CODE substitutions in source order. -/
def convert (s : String) : String :=
  if s = "" then ""
  else
    let t0 := escapeList s.data
    let t1 := subUUGo none t0
    let t2 := subPairGo '*' true false "**".data "**".data none t1
    let t3 := subPairGo '_' true false "*".data "*".data none t2
    let t4 := subPairGo '~' true false "~~".data "~~".data none t3
    let t5 := subPairGo '`' false true "`".data "`".data none t4
    String.mk t5

end TelegramFormatter

namespace TgArchive

/-- `text.replace("\n", "<br>")`: single-character pattern, so the Python
`str.replace` is the character-wise expansion below. -/
def replaceNl (cs : List Char) : List Char :=
  cs.flatMap (fun c => if c = '\n' then "<br>".data else [c])

/-- `Build._markdown` (build.py): empty text short-circuits to `""`; otherwise
the text is Telegram-converted and handed to the external CommonMark
parser/renderer (`md`, which may fail); on failure the *converted* text — the
`text` variable was rebound before the failing call — is returned with
newlines replaced by `<br>`. -/
def markdownWith (md : String → Option String) (text : String) : String :=
  if text = "" then ""
  else
    let t := TelegramFormatter.convert text
    match md t with
    | some h => h
    | none => String.mk (replaceNl t.data)

/-- The per-message content rendering of a page: the template calls the
`markdown` helper once per message. -/
def renderContents (md : String → Option String) (msgs : List Message) : List String :=
  msgs.map (fun m => markdownWith md m.content)

/-- The characters of `"</body>"`. -/
def bodyTag : List Char := "</body>".data

/-- `"</body>" in html`: is the tag a substring? -/
def occursBody : List Char → Bool
  | [] => false
  | c :: rest => bodyTag.isPrefixOf (c :: rest) || occursBody rest

/-- `html.replace("</body>", new)`: leftmost non-overlapping replacement of
every occurrence of the tag. -/
def replBody (new : List Char) (l : List Char) : List Char :=
  match l with
  | [] => []
  | c :: rest =>
    if bodyTag.isPrefixOf (c :: rest) then new ++ replBody new (rest.drop 6)
    else c :: replBody new rest
termination_by l.length
decreasing_by
  all_goals simp only [List.length_cons, List.length_drop]
  all_goals omega

/-- `Build._inject_extras` (build.py), parametric in the injected fragment:
if `"</body>"` does not occur, the page is returned unchanged; otherwise every
occurrence of `"</body>"` is replaced by `extras + "\n</body>"`. -/
def injectExtrasWith (extras : List Char) (html : String) : String :=
  if occursBody html.data then
    String.mk (replBody (extras ++ '\n' :: bodyTag) html.data)
  else html

/-- `Build._css_fix_block` (build.py): the literal layout-safety stylesheet. -/
def cssFixBlock : String :=
  "\n<style>\n/* 全局防止横向溢出 */\nhtml, body \x7b\n    max-width: 100%;\n    overflow-x: hidden; \n\x7d\n\n/* 强制长单词/长URL换行 */\n* \x7b\n    overflow-wrap: break-word;\n    word-wrap: break-word;\n    word-break: break-word; \n\x7d\n\n/* 限制图片和视频最大宽度为容器宽度 */\nimg, video \x7b\n    max-width: 100% !important;\n    height: auto !important;\n\x7d\n\n/* 代码块自动换行或滚动 */\npre, code \x7b\n    white-space: pre-wrap; /* 强制换行 */\n    word-wrap: break-word;\n    max-width: 100%;\n    overflow-x: auto;\n\x7d\n</style>\n"

/-- `Build._search_ui_block` (build.py): the literal client-side search UI
fragment (styles, markup and script). -/
def searchUiBlock : String :=
  "\n<style>\n#search-btn\x7bposition:fixed;right:24px;bottom:24px;width:52px;height:52px;\nborder-radius:50%;background:#38bdf8;color:#020617;display:flex;\nalign-items:center;justify-content:center;font-size:24px;cursor:pointer;\nz-index:9998;box-shadow:0 4px 12px rgba(0,0,0,0.3);\x7d\n#search-overlay\x7bposition:fixed;inset:0;background:rgba(0,0,0,.65);\nbackdrop-filter:blur(6px);z-index:9999;display:none;\nalign-items:flex-start;justify-content:center;padding-top:8vh\x7d\n#search-overlay.active\x7bdisplay:flex\x7d\n#search-dialog\x7bwidth:min(920px,96vw);background:#020617;\nborder:1px solid #1e293b;border-radius:14px;overflow:hidden;box-shadow:0 10px 25px rgba(0,0,0,0.5);\x7d\n#search-input\x7bwidth:100%;padding:18px;font-size:17px;border:none;\noutline:none;background:#020617;color:#f8fafc;\nborder-bottom:1px solid #1e293b\x7d\n#search-results\x7bmax-height:70vh;overflow-y:auto;padding:8px\x7d\n.search-item\x7bbackground:#020617;border:1px solid #1e293b;\nborder-radius:10px;padding:18px 20px;margin-bottom:12px;cursor:pointer;transition:background 0.2s;\x7d\n.search-item:hover\x7bbackground:#0f172a;\x7d\n.search-user\x7bfont-size:13px;color:#7dd3fc;margin-bottom:10px\x7d\n.search-text\x7bfont-size:16px;line-height:1.75;color:#f8fafc\x7d\n.search-text p\x7bmargin:0 0 1em 0\x7d\nmark.search-hit\x7bbackground:#fde047;color:#020617;\npadding:0 3px;border-radius:4px\x7d\n</style>\n\n<div id=\"search-btn\">🔍</div>\n\n<div id=\"search-overlay\">\n  <div id=\"search-dialog\">\n    <input id=\"search-input\" type=\"search\" placeholder=\"搜索消息…\" />\n    <div id=\"search-results\"></div>\n  </div>\n</div>\n\n<script>\nlet DATA=null;\nfunction highlight(html,q)\x7b\n  if(!q) return html;\n  const re=new RegExp(q.replace(/[.*+?^$\x7b\x7d()|[\\]\\\\]/g,\"\\\\$&\"),\"gi\");\n  return html.replace(re,m=>`<mark class=\"search-hit\">$\x7bm\x7d</mark>`);\n\x7d\nasync function loadData()\x7b\n  if(DATA) return DATA;\n  const r=await fetch(\"search.json\");\n  DATA=await r.json();\n  return DATA;\n\x7d\nfunction openSearch()\x7b\n  document.getElementById(\"search-overlay\").classList.add(\"active\");\n  const i=document.getElementById(\"search-input\");\n  i.value=\"\";i.focus();\n\x7d\nfunction closeSearch()\x7b\n  document.getElementById(\"search-overlay\").classList.remove(\"active\");\n\x7d\ndocument.getElementById(\"search-btn\").onclick=openSearch;\ndocument.addEventListener(\"keydown\",e=>\x7b\n  if(e.key===\"/\"&&!e.target.matches(\"input,textarea\"))\x7b\n    e.preventDefault();openSearch();\n  \x7d\n  if(e.key===\"Escape\")closeSearch();\n\x7d);\ndocument.getElementById(\"search-input\").addEventListener(\"input\",async e=>\x7b\n  const q=e.target.value.trim();\n  const box=document.getElementById(\"search-results\");\n  box.innerHTML=\"\";\n  if(!q) return;\n  const data=await loadData();\n  let n=0;\n  for(const m of data)\x7b\n    if(m.text.toLowerCase().includes(q.toLowerCase()))\x7b\n      const d=document.createElement(\"div\");\n      d.className=\"search-item\";\n      d.innerHTML=`<div class=\"search-user\">@$\x7bm.user\x7d · $\x7bm.date\x7d</div>\n                   <div class=\"search-text\">$\x7bhighlight(m.html,q)\x7d</div>`;\n      d.onclick=()=>location.href=m.url;\n      box.appendChild(d);\n      if(++n>=50) break;\n    \x7d\n  \x7d\n\x7d);\n</script>\n"

/-- `Build._inject_extras` (build.py): the fixed fragment is the CSS fix block
followed by the search UI block. -/
def injectExtras (html : String) : String :=
  injectExtrasWith (cssFixBlock ++ "\n" ++ searchUiBlock).data html

/-- The characters that replace each `"</body>"` occurrence:
`extras + "\n</body>"`. -/
def injectedTail : List Char :=
  (cssFixBlock ++ "\n" ++ searchUiBlock).data ++ '\n' :: bodyTag

/-- The decomposition underlying Python's `str.replace` on the `"</body>"`
separator (its `str.split` counterpart): the page's consecutive
`"</body>"`-free segments, scanned leftmost and non-overlapping.  Joining the
segments with the separator restores the page; `replace` joins them with the
replacement instead, i.e. it rewrites every occurrence. -/
def splitBody (l : List Char) : List (List Char) :=
  match l with
  | [] => [[]]
  | c :: rest =>
    if bodyTag.isPrefixOf (c :: rest) then [] :: splitBody (rest.drop 6)
    else
      match splitBody rest with
      | [] => [[c]]
      | s :: ss => (c :: s) :: ss
termination_by l.length
decreasing_by
  all_goals simp only [List.length_cons, List.length_drop]
  all_goals omega

/-!  Specification-side helpers: the closed forms the pagination loops are
proved equal to, and the flattened write sequences of the resolution pass. -/

/-- Splitting a message list into consecutive `pp`-sized chunks (fuel-indexed;
any fuel above the list length is exact when `0 < pp`). -/
def chunkAux (pp : Nat) : Nat → List Message → List (List Message)
  | 0, _ => []
  | _ + 1, [] => []
  | fuel + 1, a :: l => (a :: l).take pp :: chunkAux pp fuel ((a :: l).drop pp)

/-- The consecutive `pp`-sized chunks of a message list. -/
def chunkPages (pp : Nat) (l : List Message) : List (List Message) :=
  chunkAux pp (l.length + 1) l

/-- Attach the page filenames `makeFilename mo k, makeFilename mo (k+1), …`
to a list of page chunks. -/
def labelChunks (mo : Month) : Nat → List (List Message) → List (String × List Message)
  | _, [] => []
  | k, c :: cs => (makeFilename mo k, c) :: labelChunks mo (k + 1) cs

/-- The `(filename, message)` pairs visited by the resolution pass, in
encounter order over the whole timeline. -/
def allWrites (pp : Nat) (tl : List Month) : List (String × Message) :=
  (scanAllPages pp tl).flatMap (fun pg => pg.2.map (fun m => (pg.1, m)))

/-- One `page_ids[m.id] = fname` write, as a fold step over `allWrites`. -/
def pageWriteStep (d : Nat → Option String) (w : String × Message) : Nat → Option String :=
  updPage d w.2.id w.1

/-- One conditional `day_to_page[slug] = fname` write, as a fold step over
`allWrites`. -/
def dayWriteStep (d : String → Option String) (w : String × Message) : String → Option String :=
  if d w.2.daySlug = none then updDay d w.2.daySlug w.1 else d

/-!  Concrete example data used by the claim witnesses and counterexamples. -/

/-- An example message with the given id, content and day slug. -/
def exMsg (i : Nat) (c : String) (d : String) : Message :=
  { id := i, content := c, user := some "alice", dateIso := "2024-01-02T03:04:05+00:00", daySlug := d }

/-- A five-message month bucket with slug `"slug"` and ids 1–5. -/
def exMonth5 : Month :=
  { slug := "slug"
    msgs := [exMsg 1 "one" "2024-01-01", exMsg 2 "two" "2024-01-01", exMsg 3 "three" "2024-01-02",
             exMsg 4 "" "2024-01-02", exMsg 5 "five" "2024-01-03"] }

/-- A second month bucket with slug `"next"` and ids 6–7. -/
def exMonth2 : Month :=
  { slug := "next", msgs := [exMsg 6 "six" "2024-02-01", exMsg 7 " " "2024-02-01"] }

/-- A two-bucket example timeline. -/
def exTimeline : List Month := [exMonth5, exMonth2]

end TgArchive


namespace TgArchive

/-!  Sorting lemmas: on a strictly id-sorted batch the stable sort is the
identity. -/

theorem insertById_eq_cons {x : Message} {l : List Message}
    (h : List.Pairwise IdLt (x :: l)) : insertById x l = x :: l := by
  cases l with
  | nil => rfl
  | cons y ys =>
    have hxy : x.id < y.id := (List.pairwise_cons.mp h).1 y (List.mem_cons_self y ys)
    show (if y.id ≤ x.id then y :: insertById x ys else x :: y :: ys) = x :: y :: ys
    rw [if_neg (by omega)]

theorem sortById_of_sorted {l : List Message}
    (h : List.Pairwise IdLt l) : sortById l = l := by
  induction l with
  | nil => rfl
  | cons x xs ih =>
    have h' := List.pairwise_cons.mp h
    show insertById x (sortById xs) = x :: xs
    rw [ih h'.2, insertById_eq_cons h]

theorem getLastD_mem {α : Type} : ∀ (l : List α) (d : α), l ≠ [] → l.getLastD d ∈ l := by
  intro l
  induction l with
  | nil => intro d h; exact absurd rfl h
  | cons a t ih =>
    intro d _
    rw [List.getLastD_cons]
    cases t with
    | nil => exact List.mem_singleton.mpr rfl
    | cons b t' => exact List.mem_cons_of_mem a (ih a (by simp))

theorem sorted_le_getLastD : ∀ {l : List Message} (d : Message),
    List.Pairwise IdLt l → ∀ x ∈ l, x.id ≤ (l.getLastD d).id := by
  intro l
  induction l with
  | nil => intro d _ x hx; cases hx
  | cons a t ih =>
    intro d h x hx
    rw [List.getLastD_cons]
    rcases List.mem_cons.mp hx with rfl | hxt
    · cases t with
      | nil => exact Nat.le_refl _
      | cons b t' =>
        have hmem : (b :: t').getLastD x ∈ b :: t' := getLastD_mem _ _ (by simp)
        have := (List.pairwise_cons.mp h).1 _ hmem
        exact Nat.le_of_lt this
    · exact ih a (List.pairwise_cons.mp h).2 x hxt

/-!  The pagination advance step: after a nonempty batch the messages still
pending are exactly the current pending list with the batch dropped. -/

theorem filter_after_batch {msgs : List Message} {lastId pp : Nat}
    (hs : List.Pairwise IdLt msgs) (hpp : 0 < pp)
    (hne : msgs.filter (fun m => lastId < m.id) ≠ []) :
    msgs.filter
        (fun m => (((msgs.filter (fun m => lastId < m.id)).take pp).getLastD default).id < m.id)
      = (msgs.filter (fun m => lastId < m.id)).drop pp := by
  set S := msgs.filter (fun m => lastId < m.id) with hSdef
  set b := (S.take pp).getLastD default with hbdef
  have hbatch_ne : S.take pp ≠ [] := by
    intro hcon
    rcases List.take_eq_nil_iff.mp hcon with h | h
    · omega
    · exact hne h
  have hbmem : b ∈ S.take pp := getLastD_mem _ _ hbatch_ne
  have hbS : b ∈ S := (List.take_sublist pp S).subset hbmem
  have hlastb : lastId < b.id := by
    have := (List.mem_filter.mp (hSdef ▸ hbS)).2
    simpa using this
  have hSsorted : List.Pairwise IdLt S := hSdef ▸ List.Pairwise.filter _ hs
  have h1 : msgs.filter (fun m => b.id < m.id) = S.filter (fun m => b.id < m.id) := by
    rw [hSdef, List.filter_filter]
    apply List.filter_congr
    intro x _
    by_cases hbx : b.id < x.id
    · have : lastId < x.id := Nat.lt_trans hlastb hbx
      simp [hbx, this]
    · simp [hbx]
  have hsorted_take : List.Pairwise IdLt (S.take pp) :=
    List.Pairwise.sublist (List.take_sublist pp S) hSsorted
  have h2 : S.filter (fun m => b.id < m.id) = S.drop pp := by
    conv_lhs => rw [← List.take_append_drop pp S]
    rw [List.filter_append]
    have hfa : (S.take pp).filter (fun m => b.id < m.id) = [] := by
      rw [List.filter_eq_nil_iff]
      intro a ha
      have : a.id ≤ b.id := sorted_le_getLastD default hsorted_take a ha
      simp
      omega
    have hsplit : List.Pairwise IdLt (S.take pp ++ S.drop pp) := by
      rw [List.take_append_drop]
      exact hSsorted
    have hfb : (S.drop pp).filter (fun m => b.id < m.id) = S.drop pp := by
      rw [List.filter_eq_self]
      intro a ha
      have hlt : b.id < a.id := (List.pairwise_append.mp hsplit).2.2 b hbmem a ha
      simpa using hlt
    rw [hfa, hfb, List.nil_append]
  exact h1.trans h2

end TgArchive

namespace TgArchive

/-!  Chunking lemmas: closed form of the pagination loops. -/

theorem chunkAux_fuel_irrel {pp : Nat} (hpp : 0 < pp) :
    ∀ (f g : Nat) (l : List Message), l.length < f → l.length < g →
      chunkAux pp f l = chunkAux pp g l := by
  intro f
  induction f with
  | zero => intro g l hf _; omega
  | succ f ih =>
    intro g l hf hg
    cases g with
    | zero => omega
    | succ g =>
      cases l with
      | nil => rfl
      | cons a t =>
        show (a :: t).take pp :: chunkAux pp f ((a :: t).drop pp)
            = (a :: t).take pp :: chunkAux pp g ((a :: t).drop pp)
        have hlen : ((a :: t).drop pp).length = (a :: t).length - pp :=
          List.length_drop pp (a :: t)
        have hlc : (a :: t).length = t.length + 1 := by simp
        congr 1
        exact ih g _ (by omega) (by omega)

theorem chunkPages_cons {pp : Nat} (hpp : 0 < pp) (l : List Message) (hne : l ≠ []) :
    chunkPages pp l = l.take pp :: chunkPages pp (l.drop pp) := by
  cases l with
  | nil => exact absurd rfl hne
  | cons a t =>
    show chunkAux pp ((a :: t).length + 1) (a :: t)
        = (a :: t).take pp :: chunkAux pp (((a :: t).drop pp).length + 1) ((a :: t).drop pp)
    have hstep : chunkAux pp ((a :: t).length + 1) (a :: t)
        = (a :: t).take pp :: chunkAux pp (a :: t).length ((a :: t).drop pp) := by
      simp [chunkAux]
    rw [hstep]
    congr 1
    have hlen : ((a :: t).drop pp).length = (a :: t).length - pp :=
      List.length_drop pp (a :: t)
    have hlc : (a :: t).length = t.length + 1 := by simp
    exact chunkAux_fuel_irrel hpp _ _ _ (by omega) (by omega)

theorem chunkAux_flatten {pp : Nat} (hpp : 0 < pp) :
    ∀ (f : Nat) (l : List Message), l.length < f → (chunkAux pp f l).flatten = l := by
  intro f
  induction f with
  | zero => intro l hf; omega
  | succ f ih =>
    intro l hf
    cases l with
    | nil => rfl
    | cons a t =>
      show ((a :: t).take pp :: chunkAux pp f ((a :: t).drop pp)).flatten = a :: t
      rw [List.flatten_cons]
      have hlen : ((a :: t).drop pp).length = (a :: t).length - pp :=
        List.length_drop pp (a :: t)
      have hlc : (a :: t).length = t.length + 1 := by simp
      rw [ih _ (by omega)]
      exact List.take_append_drop pp (a :: t)

theorem chunkPages_flatten {pp : Nat} (hpp : 0 < pp) (l : List Message) :
    (chunkPages pp l).flatten = l :=
  chunkAux_flatten hpp _ l (by omega)

theorem chunkAux_mem_sublist {pp : Nat} :
    ∀ (f : Nat) (l c : List Message), c ∈ chunkAux pp f l → c.Sublist l := by
  intro f
  induction f with
  | zero => intro l c hc; cases hc
  | succ f ih =>
    intro l c hc
    cases l with
    | nil => cases hc
    | cons a t =>
      rcases List.mem_cons.mp hc with rfl | hmem
      · exact List.take_sublist pp (a :: t)
      · exact (ih _ c hmem).trans (List.drop_sublist pp (a :: t))

theorem chunkPages_mem_sublist {pp : Nat} {l c : List Message}
    (hc : c ∈ chunkPages pp l) : c.Sublist l :=
  chunkAux_mem_sublist _ l c hc

theorem labelChunks_map_snd (mo : Month) :
    ∀ (k : Nat) (cs : List (List Message)), (labelChunks mo k cs).map (·.2) = cs := by
  intro k cs
  induction cs generalizing k with
  | nil => rfl
  | cons c cs ih => simp [labelChunks, ih]

theorem mem_labelChunks_snd {mo : Month} :
    ∀ {k : Nat} {cs : List (List Message)} {pg : String × List Message},
      pg ∈ labelChunks mo k cs → pg.2 ∈ cs := by
  intro k cs
  induction cs generalizing k with
  | nil => intro pg hpg; cases hpg
  | cons c cs ih =>
    intro pg hpg
    rcases List.mem_cons.mp hpg with rfl | hmem
    · exact List.mem_cons_self _ _
    · exact List.mem_cons_of_mem _ (ih hmem)

/-!  The master lemma: on a sorted bucket the resolution-pass loop produces
exactly the labelled `pp`-chunks of the still-pending messages. -/

theorem scanMonthLoop_eq_labelChunks {mo : Month} {pp : Nat}
    (hs : List.Pairwise IdLt mo.msgs) (hpp : 0 < pp) :
    ∀ (fuel lastId page : Nat),
      (mo.msgs.filter (fun m => lastId < m.id)).length < fuel →
      scanMonthLoop pp mo fuel lastId page
        = labelChunks mo (page + 1)
            (chunkPages pp (mo.msgs.filter (fun m => lastId < m.id))) := by
  intro fuel
  induction fuel with
  | zero => intro lastId page h; omega
  | succ fuel ih =>
    intro lastId page h
    by_cases hS : mo.msgs.filter (fun m => lastId < m.id) = []
    · have hmsgs : getMessages mo.msgs lastId pp = [] := by
        rw [getMessages, hS]; simp
      simp [scanMonthLoop, hmsgs, hS, chunkPages, chunkAux, labelChunks]
    · set S := mo.msgs.filter (fun m => lastId < m.id) with hSdef
      have hbatch : getMessages mo.msgs lastId pp = S.take pp := rfl
      have hbne : S.take pp ≠ [] := by
        intro hcon
        rcases List.take_eq_nil_iff.mp hcon with hc | hc
        · omega
        · exact hS hc
      have hSsorted : List.Pairwise IdLt S := List.Pairwise.filter _ hs
      have hsorted_take : List.Pairwise IdLt (S.take pp) :=
        List.Pairwise.sublist (List.take_sublist pp S) hSsorted
      have hadv : mo.msgs.filter
          (fun m => (((mo.msgs.filter (fun m => lastId < m.id)).take pp).getLastD default).id < m.id)
            = (mo.msgs.filter (fun m => lastId < m.id)).drop pp :=
        filter_after_batch hs hpp hS
      have hlen : (mo.msgs.filter
          (fun m => (((S.take pp).getLastD default).id < m.id))).length < fuel := by
        rw [hadv, ← hSdef]
        have := List.length_drop pp S
        have hSlen : S.length < fuel + 1 := h
        have hSpos : 0 < S.length := List.length_pos.mpr hS
        omega
      show (if (getMessages mo.msgs lastId pp).isEmpty then []
        else
          (makeFilename mo (page + 1), sortById (getMessages mo.msgs lastId pp)) ::
            scanMonthLoop pp mo fuel
              ((sortById (getMessages mo.msgs lastId pp)).getLastD default).id (page + 1))
        = labelChunks mo (page + 1) (chunkPages pp S)
    
      rw [hbatch, sortById_of_sorted hsorted_take,
        if_neg (by simpa [List.isEmpty_iff] using hbne)]
      rw [ih _ _ hlen, hadv]
      rw [chunkPages_cons hpp S hS]
      rfl

theorem scanMonthPages_eq_labelChunks {mo : Month} {pp : Nat}
    (hmo : MonthOk mo) (hpp : 0 < pp) :
    scanMonthPages pp mo = labelChunks mo 1 (chunkPages pp mo.msgs) := by
  have hfilter : mo.msgs.filter (fun m => 0 < m.id) = mo.msgs := by
    rw [List.filter_eq_self]
    intro a ha
    simpa using hmo.2 a ha
  have := scanMonthLoop_eq_labelChunks hmo.1 hpp (mo.msgs.length + 1) 0 0
    (by rw [hfilter]; omega)
  rw [scanMonthPages, this, hfilter]

end TgArchive

namespace TgArchive

/-!  Agreement of the traversal passes. -/

theorem renderMonthLoop_eq_scan (pp : Nat) (mo : Month) :
    ∀ (fuel lastId page : Nat),
      renderMonthLoop pp mo fuel lastId page = scanMonthLoop pp mo fuel lastId page := by
  intro fuel
  induction fuel with
  | zero => intro _ _; rfl
  | succ fuel ih =>
    intro lastId page
    show (if (getMessages mo.msgs lastId pp).isEmpty then []
        else
          (makeFilename mo (page + 1), sortById (getMessages mo.msgs lastId pp)) ::
            renderMonthLoop pp mo fuel
              ((sortById (getMessages mo.msgs lastId pp)).getLastD default).id (page + 1))
      = (if (getMessages mo.msgs lastId pp).isEmpty then []
        else
          (makeFilename mo (page + 1), sortById (getMessages mo.msgs lastId pp)) ::
            scanMonthLoop pp mo fuel
              ((sortById (getMessages mo.msgs lastId pp)).getLastD default).id (page + 1))
    rw [ih]

theorem renderMonthPages_eq_scan (pp : Nat) (mo : Month) :
    renderMonthPages pp mo = scanMonthPages pp mo :=
  renderMonthLoop_eq_scan pp mo _ 0 0

theorem renderAllPages_eq_scan (pp : Nat) (tl : List Month) :
    renderAllPages pp tl = scanAllPages pp tl := by
  unfold renderAllPages scanAllPages
  simp only [renderMonthPages_eq_scan]

theorem collectMonthLoop_eq_scan {pp : Nat} {mo : Month}
    (hs : List.Pairwise IdLt mo.msgs) :
    ∀ (fuel lastId page : Nat),
      collectMonthLoop pp mo fuel lastId page = scanMonthLoop pp mo fuel lastId page := by
  intro fuel
  induction fuel with
  | zero => intro _ _; rfl
  | succ fuel ih =>
    intro lastId page
    have hsorted : List.Pairwise IdLt (getMessages mo.msgs lastId pp) := by
      unfold getMessages
      exact List.Pairwise.sublist (List.take_sublist _ _) (List.Pairwise.filter _ hs)
    show (if (getMessages mo.msgs lastId pp).isEmpty then []
        else
          (makeFilename mo (page + 1), getMessages mo.msgs lastId pp) ::
            collectMonthLoop pp mo fuel
              ((getMessages mo.msgs lastId pp).getLastD default).id (page + 1))
      = (if (getMessages mo.msgs lastId pp).isEmpty then []
        else
          (makeFilename mo (page + 1), sortById (getMessages mo.msgs lastId pp)) ::
            scanMonthLoop pp mo fuel
              ((sortById (getMessages mo.msgs lastId pp)).getLastD default).id (page + 1))
    rw [sortById_of_sorted hsorted, ih]

theorem collectMonthPages_eq_scan {pp : Nat} {mo : Month}
    (hs : List.Pairwise IdLt mo.msgs) :
    collectMonthPages pp mo = scanMonthPages pp mo :=
  collectMonthLoop_eq_scan hs _ 0 0

end TgArchive

namespace TgArchive

/-!  Flattening the nested resolution-pass folds into a single write sequence,
and the lookup behaviour of the two dict folds. -/

theorem foldl_foldl_eq_foldl_flatMap {α β γ : Type} (f : α → γ → α) (g : β → List γ) :
    ∀ (l : List β) (a : α),
      l.foldl (fun a x => (g x).foldl f a) a = (l.flatMap g).foldl f a := by
  intro l
  induction l with
  | nil => intro a; rfl
  | cons x xs ih =>
    intro a
    show xs.foldl (fun a x => (g x).foldl f a) ((g x).foldl f a)
        = ((g x ++ xs.flatMap g).foldl f a)
    rw [List.foldl_append, ih]

theorem foldl_prod_split {α β γ : Type} (f : α → γ → α) (g : β → γ → β) :
    ∀ (l : List γ) (a : α) (b : β),
      l.foldl (fun p x => (f p.1 x, g p.2 x)) (a, b) = (l.foldl f a, l.foldl g b) := by
  intro l
  induction l with
  | nil => intro a b; rfl
  | cons x xs ih => intro a b; exact ih (f a x) (g b x)

theorem flatMap_assoc' {α β γ : Type} (l : List α) (f : α → List β) (g : β → List γ) :
    (l.flatMap f).flatMap g = l.flatMap (fun x => (f x).flatMap g) := by
  induction l with
  | nil => rfl
  | cons a l ih =>
    show ((f a ++ l.flatMap f).flatMap g) = (f a).flatMap g ++ l.flatMap fun x => (f x).flatMap g
    rw [List.flatMap_append, ih]

theorem monthFold_eq_flat (pp : Nat) (mo : Month)
    (acc : (Nat → Option String) × (String → Option String)) :
    (scanMonthPages pp mo).foldl
        (fun acc' pg => pg.2.foldl (fun a m => scanPageStep a pg.1 m) acc') acc
      = ((scanMonthPages pp mo).flatMap (fun pg => pg.2.map (fun m => (pg.1, m)))).foldl
          (fun p w => (pageWriteStep p.1 w, dayWriteStep p.2 w)) acc := by
  rw [← foldl_foldl_eq_foldl_flatMap]
  congr 1
  funext acc' pg
  rw [List.foldl_map]
  rfl

theorem scanTimelineMaps_eq_folds (pp : Nat) (tl : List Month) :
    scanTimelineMaps pp tl
      = ((allWrites pp tl).foldl pageWriteStep (fun _ => none),
         (allWrites pp tl).foldl dayWriteStep (fun _ => none)) := by
  unfold scanTimelineMaps
  simp only [monthFold_eq_flat]
  rw [foldl_foldl_eq_foldl_flatMap
    (fun p w => (pageWriteStep p.1 w, dayWriteStep p.2 w))
    (fun mo => (scanMonthPages pp mo).flatMap (fun pg => pg.2.map (fun m => (pg.1, m))))]
  rw [show allWrites pp tl
      = tl.flatMap (fun mo => (scanMonthPages pp mo).flatMap (fun pg => pg.2.map (fun m => (pg.1, m)))) by
    rw [allWrites, scanAllPages, flatMap_assoc']]
  exact foldl_prod_split pageWriteStep dayWriteStep _ _ _

end TgArchive

namespace TgArchive

theorem pageFold_lookup :
    ∀ (ws : List (String × Message)) (d : Nat → Option String) (k : Nat) (v : String),
      (d k = some v ∨ ∃ w ∈ ws, w.2.id = k) →
      (∀ w ∈ ws, w.2.id = k → w.1 = v) →
      (ws.foldl pageWriteStep d) k = some v := by
  intro ws
  induction ws with
  | nil =>
    intro d k v hex _
    rcases hex with h | ⟨w, hw, _⟩
    · exact h
    · cases hw
  | cons w ws ih =>
    intro d k v hex hall
    show (ws.foldl pageWriteStep (pageWriteStep d w)) k = some v
    by_cases hk : k = w.2.id
    · apply ih
      · left
        show (if k = w.2.id then some w.1 else d k) = some v
        rw [if_pos hk, hall w (List.mem_cons_self w ws) hk.symm]
      · intro w' hw' hid
        exact hall w' (List.mem_cons_of_mem w hw') hid
    · apply ih
      · rcases hex with h | ⟨w', hw', hid⟩
        · left
          show (if k = w.2.id then some w.1 else d k) = some v
          rw [if_neg hk]
          exact h
        · rcases List.mem_cons.mp hw' with rfl | hmem
          · exact absurd hid.symm (by simpa using hk)
          · exact Or.inr ⟨w', hmem, hid⟩
      · intro w' hw' hid
        exact hall w' (List.mem_cons_of_mem w hw') hid

theorem dayFold_lookup :
    ∀ (ws : List (String × Message)) (d : String → Option String) (s : String),
      (ws.foldl dayWriteStep d) s
        = match d s with
          | some v => some v
          | none => (ws.find? (fun w => decide (w.2.daySlug = s))).map (·.1) := by
  intro ws
  induction ws with
  | nil =>
    intro d s
    show d s = match d s with
      | some v => some v
      | none => none
    cases d s <;> rfl
  | cons w ws ih =>
    intro d s
    show (ws.foldl dayWriteStep (dayWriteStep d w)) s = _
    rw [ih]
    by_cases hd : d w.2.daySlug = none
    · by_cases hs : w.2.daySlug = s
      · have hds : d s = none := hs ▸ hd
        have hstep : (dayWriteStep d w) s = some w.1 := by
          show (if d w.2.daySlug = none then updDay d w.2.daySlug w.1 else d) s = some w.1
          rw [if_pos hd]
          show (if s = w.2.daySlug then some w.1 else d s) = some w.1
          rw [if_pos hs.symm]
        rw [hstep, hds]
        have : (List.find? (fun w => decide (w.2.daySlug = s)) (w :: ws)) = some w := by
          rw [List.find?_cons]
          simp [hs]
        rw [this]
        rfl
      · have hstep : (dayWriteStep d w) s = d s := by
          show (if d w.2.daySlug = none then updDay d w.2.daySlug w.1 else d) s = d s
          rw [if_pos hd]
          show (if s = w.2.daySlug then some w.1 else d s) = d s
          rw [if_neg (fun hc => hs hc.symm)]
        rw [hstep]
        cases hcase : d s with
        | some v => rfl
        | none =>
          have : (List.find? (fun w => decide (w.2.daySlug = s)) (w :: ws))
              = List.find? (fun w => decide (w.2.daySlug = s)) ws := by
            rw [List.find?_cons]
            simp [hs]
          rw [this]
    · have hstep : (dayWriteStep d w) s = d s := by
        show (if d w.2.daySlug = none then updDay d w.2.daySlug w.1 else d) s = d s
        rw [if_neg hd]
      rw [hstep]
      cases hcase : d s with
      | some v => rfl
      | none =>
        have hs : w.2.daySlug ≠ s := by
          intro hc
          rw [hc, hcase] at hd
          exact hd rfl
        have : (List.find? (fun w => decide (w.2.daySlug = s)) (w :: ws))
            = List.find? (fun w => decide (w.2.daySlug = s)) ws := by
          rw [List.find?_cons]
          simp [hs]
        rw [this]

/-!  Counting: a message id that occurs exactly once in the flattened pages
lies in exactly one page. -/

theorem countP_one_unique {α : Type} (p : α → Bool) {l : List α} (h : l.countP p = 1)
    {a b : α} (ha : a ∈ l) (hb : b ∈ l) (hpa : p a = true) (hpb : p b = true) : a = b := by
  rw [List.countP_eq_length_filter] at h
  obtain ⟨u, hu⟩ := List.length_eq_one.mp h
  have h1 : a ∈ l.filter p := List.mem_filter.mpr ⟨ha, hpa⟩
  have h2 : b ∈ l.filter p := List.mem_filter.mpr ⟨hb, hpb⟩
  rw [hu, List.mem_singleton] at h1 h2
  rw [h1, h2]

theorem countP_mem_of_count_flatten_one :
    ∀ (L : List (List Nat)) (x : Nat),
      List.count x L.flatten = 1 → L.countP (fun c => decide (x ∈ c)) = 1 := by
  intro L
  induction L with
  | nil => intro x h; simp at h
  | cons c L ih =>
    intro x h
    rw [List.flatten_cons, List.count_append] at h
    rw [List.countP_cons]
    by_cases hc : x ∈ c
    · have hcpos : 0 < List.count x c := List.count_pos_iff.mpr hc
      have hrest : List.count x L.flatten = 0 := by omega
      have hLzero : L.countP (fun c => decide (x ∈ c)) = 0 := by
        rw [List.countP_eq_zero]
        intro c' hc'
        simp only [decide_eq_true_eq]
        intro hxc'
        have : x ∈ L.flatten := List.mem_flatten.mpr ⟨c', hc', hxc'⟩
        have := List.count_pos_iff.mpr this
        omega
      rw [hLzero, if_pos (by simpa using hc)]
    · have hczero : List.count x c = 0 := by
        rw [List.count_eq_zero]
        exact hc
      rw [if_neg (by simpa using hc)]
      exact (ih x (by omega)).trans rfl

end TgArchive

namespace TgArchive

theorem flatMap_flatten' {α β : Type} (l : List α) (h : α → List (List β)) :
    (l.flatMap h).flatten = l.flatMap (fun x => (h x).flatten) := by
  induction l with
  | nil => rfl
  | cons a l ih =>
    show ((h a ++ l.flatMap h)).flatten = (h a).flatten ++ l.flatMap (fun x => (h x).flatten)
    rw [List.flatten_append, ih]

theorem scanMonthPages_msgs_flatten {pp : Nat} {mo : Month}
    (hmo : MonthOk mo) (hpp : 0 < pp) :
    ((scanMonthPages pp mo).map (·.2)).flatten = mo.msgs := by
  rw [scanMonthPages_eq_labelChunks hmo hpp, labelChunks_map_snd, chunkPages_flatten hpp]

theorem scanAllPages_msgs_flatten {pp : Nat} {tl : List Month}
    (htl : ∀ mo ∈ tl, MonthOk mo) (hpp : 0 < pp) :
    ((scanAllPages pp tl).map (·.2)).flatten = storeMsgs tl := by
  rw [scanAllPages, List.map_flatMap, flatMap_flatten', storeMsgs]
  exact List.flatMap_congr (fun mo hmo => scanMonthPages_msgs_flatten (htl mo hmo) hpp)

/-- A message of the store lies on some resolution-pass page. -/
theorem mem_scanAllPages_of_mem_store {pp : Nat} {tl : List Month} {m : Message}
    (htl : ∀ mo ∈ tl, MonthOk mo) (hpp : 0 < pp) (hm : m ∈ storeMsgs tl) :
    ∃ pg ∈ scanAllPages pp tl, m ∈ pg.2 := by
  rw [← scanAllPages_msgs_flatten htl hpp] at hm
  obtain ⟨c, hc, hmc⟩ := List.mem_flatten.mp hm
  obtain ⟨pg, hpg, rfl⟩ := List.mem_map.mp hc
  exact ⟨pg, hpg, hmc⟩

/-- A message id of the store lies on exactly one resolution-pass page. -/
theorem scanAllPages_countP_id {pp : Nat} {tl : List Month} {m : Message}
    (htl : ∀ mo ∈ tl, MonthOk mo) (hpp : 0 < pp)
    (hnd : ((storeMsgs tl).map Message.id).Nodup) (hm : m ∈ storeMsgs tl) :
    (scanAllPages pp tl).countP (fun pg => decide (m.id ∈ pg.2.map Message.id)) = 1 := by
  have h1 : (scanAllPages pp tl).countP (fun pg => decide (m.id ∈ pg.2.map Message.id))
      = ((scanAllPages pp tl).map (fun pg => pg.2.map Message.id)).countP
          (fun c => decide (m.id ∈ c)) := by
    rw [List.countP_map]
    rfl
  have h2 : ((scanAllPages pp tl).map (fun pg => pg.2.map Message.id)).flatten
      = (storeMsgs tl).map Message.id := by
    have hmm : (scanAllPages pp tl).map (fun pg => pg.2.map Message.id)
        = ((scanAllPages pp tl).map (·.2)).map (List.map Message.id) := by
      rw [List.map_map]
      rfl
    rw [hmm, ← List.map_flatten, scanAllPages_msgs_flatten htl hpp]
  have h3 : List.count m.id ((storeMsgs tl).map Message.id) = 1 :=
    List.count_eq_one_of_mem hnd (List.mem_map_of_mem Message.id hm)
  rw [h1]
  exact countP_mem_of_count_flatten_one _ m.id (by rw [h2]; exact h3)

/-- The resolved `page_ids` entry of a message is the filename of whichever
resolution-pass page contains it. -/
theorem scanTimelineMaps_pageIds_lookup {pp : Nat} {tl : List Month} {m : Message}
    {pg : String × List Message}
    (htl : ∀ mo ∈ tl, MonthOk mo) (hpp : 0 < pp)
    (hnd : ((storeMsgs tl).map Message.id).Nodup) (hm : m ∈ storeMsgs tl)
    (hpg : pg ∈ scanAllPages pp tl) (hmid : m.id ∈ pg.2.map Message.id) :
    (scanTimelineMaps pp tl).1 m.id = some pg.1 := by
  rw [scanTimelineMaps_eq_folds]
  apply pageFold_lookup
  · right
    obtain ⟨msg, hmsg, hid⟩ := List.mem_map.mp hmid
    refine ⟨(pg.1, msg), ?_, hid⟩
    rw [allWrites]
    exact List.mem_flatMap.mpr ⟨pg, hpg, List.mem_map_of_mem _ hmsg⟩
  · intro w hw hid
    rw [allWrites] at hw
    obtain ⟨pg', hpg', hwmem⟩ := List.mem_flatMap.mp hw
    obtain ⟨msg', hmsg', rfl⟩ := List.mem_map.mp hwmem
    have hmid' : m.id ∈ pg'.2.map Message.id := by
      rw [← hid]
      exact List.mem_map_of_mem Message.id hmsg'
    have hcount := scanAllPages_countP_id htl hpp hnd hm
    have heq : pg' = pg :=
      countP_one_unique _ hcount hpg' hpg (by simpa using hmid') (by simpa using hmid)
    rw [heq]

end TgArchive

namespace TgArchive

/-!  The search-index traversal replays the same pagination. -/

theorem scanMonthLoop_snd_page_indep (pp : Nat) (mo : Month) :
    ∀ (fuel lastId p q : Nat),
      (scanMonthLoop pp mo fuel lastId p).map (·.2)
        = (scanMonthLoop pp mo fuel lastId q).map (·.2) := by
  intro fuel
  induction fuel with
  | zero => intro _ _ _; rfl
  | succ fuel ih =>
    intro lastId p q
    show ((if (getMessages mo.msgs lastId pp).isEmpty then []
        else
          (makeFilename mo (p + 1), sortById (getMessages mo.msgs lastId pp)) ::
            scanMonthLoop pp mo fuel
              ((sortById (getMessages mo.msgs lastId pp)).getLastD default).id (p + 1)).map (·.2))
      = ((if (getMessages mo.msgs lastId pp).isEmpty then []
        else
          (makeFilename mo (q + 1), sortById (getMessages mo.msgs lastId pp)) ::
            scanMonthLoop pp mo fuel
              ((sortById (getMessages mo.msgs lastId pp)).getLastD default).id (q + 1)).map (·.2))
    by_cases hE : (getMessages mo.msgs lastId pp).isEmpty
    · rw [if_pos hE, if_pos hE]
    · rw [if_neg hE, if_neg hE]
      show _ :: (scanMonthLoop pp mo fuel _ (p + 1)).map (·.2)
          = _ :: (scanMonthLoop pp mo fuel _ (q + 1)).map (·.2)
      rw [ih _ (p + 1) (q + 1)]

theorem searchMonthLoop_eq_scan (md : String → String) (pid : Nat → Option String)
    (pp : Nat) (mo : Month) :
    ∀ (fuel lastId : Nat),
      searchMonthLoop md pid pp mo fuel lastId
        = ((scanMonthLoop pp mo fuel lastId 0).map (·.2)).flatMap
            (fun c => c.filterMap (searchRecordOf md pid)) := by
  intro fuel
  induction fuel with
  | zero => intro _; rfl
  | succ fuel ih =>
    intro lastId
    show (if (getMessages mo.msgs lastId pp).isEmpty then []
        else
          (sortById (getMessages mo.msgs lastId pp)).filterMap (searchRecordOf md pid) ++
            searchMonthLoop md pid pp mo fuel
              ((sortById (getMessages mo.msgs lastId pp)).getLastD default).id)
      = ((if (getMessages mo.msgs lastId pp).isEmpty then []
        else
          (makeFilename mo (0 + 1), sortById (getMessages mo.msgs lastId pp)) ::
            scanMonthLoop pp mo fuel
              ((sortById (getMessages mo.msgs lastId pp)).getLastD default).id (0 + 1)).map (·.2)).flatMap
          (fun c => c.filterMap (searchRecordOf md pid))
    by_cases hE : (getMessages mo.msgs lastId pp).isEmpty
    · rw [if_pos hE, if_pos hE]
      rfl
    · rw [if_neg hE, if_neg hE]
      show (sortById (getMessages mo.msgs lastId pp)).filterMap (searchRecordOf md pid) ++
            searchMonthLoop md pid pp mo fuel _
          = (sortById (getMessages mo.msgs lastId pp)).filterMap (searchRecordOf md pid) ++
            ((scanMonthLoop pp mo fuel _ (0 + 1)).map (·.2)).flatMap
              (fun c => c.filterMap (searchRecordOf md pid))
    
      rw [ih, scanMonthLoop_snd_page_indep pp mo fuel _ 0 (0 + 1)]

theorem flatMap_filterMap_flatten {α β : Type} (f : α → Option β) :
    ∀ (L : List (List α)), L.flatMap (fun c => c.filterMap f) = L.flatten.filterMap f := by
  intro L
  induction L with
  | nil => rfl
  | cons c L ih =>
    show c.filterMap f ++ L.flatMap (fun c => c.filterMap f) = (c ++ L.flatten).filterMap f
    rw [List.filterMap_append, ih]

theorem filterMap_flatMap' {α β γ : Type} (f : β → Option γ) (g : α → List β) (l : List α) :
    (l.flatMap g).filterMap f = l.flatMap (fun a => (g a).filterMap f) := by
  induction l with
  | nil => rfl
  | cons a l ih =>
    show (g a ++ l.flatMap g).filterMap f = (g a).filterMap f ++ _
    rw [List.filterMap_append, ih]
    rfl

/-- Under the store contract, the search-index builder walks exactly the
store's messages in order, keeping the non-blank ones. -/
theorem buildSearchIndex_eq_filterMap {md : String → String} {pid : Nat → Option String}
    {pp : Nat} {tl : List Month} (htl : ∀ mo ∈ tl, MonthOk mo) (hpp : 0 < pp) :
    buildSearchIndex md pid pp tl = (storeMsgs tl).filterMap (searchRecordOf md pid) := by
  rw [buildSearchIndex, storeMsgs, filterMap_flatMap']
  apply List.flatMap_congr
  intro mo hmo
  rw [searchMonthLoop_eq_scan, flatMap_filterMap_flatten]
  show (((scanMonthPages pp mo).map (·.2)).flatten).filterMap (searchRecordOf md pid) = _
  rw [scanMonthPages_msgs_flatten (htl mo hmo) hpp]

theorem countP_filterMap' {α β : Type} (f : α → Option β) (p : β → Bool) :
    ∀ (l : List α),
      (l.filterMap f).countP p = l.countP (fun x => ((f x).map p).getD false) := by
  intro l
  induction l with
  | nil => rfl
  | cons a l ih =>
    rw [List.filterMap_cons, List.countP_cons]
    cases hfa : f a with
    | none => simpa [hfa] using ih
    | some b => simp [hfa, List.countP_cons, ih]

theorem countP_id_unique {l : List Message} (q : Message → Bool) :
    ∀ (hnd : (l.map Message.id).Nodup) {m : Message} (hm : m ∈ l),
      l.countP (fun x => q x && decide (x.id = m.id)) = if q m then 1 else 0 := by
  induction l with
  | nil => intro _ m hm; cases hm
  | cons a t ih =>
    intro hnd m hm
    have hnd' : (∀ x ∈ t, ¬x.id = a.id) ∧ (t.map Message.id).Nodup := by
      simpa using hnd
    rw [List.countP_cons]
    rcases List.mem_cons.mp hm with rfl | hmt
    · have htzero : t.countP (fun x => q x && decide (x.id = m.id)) = 0 := by
        rw [List.countP_eq_zero]
        intro x hx
        simp [hnd'.1 x hx]
      rw [htzero]
      simp
    · have haid : a.id ≠ m.id := by
        intro hc
        exact hnd'.1 m hmt hc.symm
      rw [ih hnd'.2 hmt]
      simp [haid]

theorem searchRecordOf_some {md : String → String} {pid : Nat → Option String}
    {msg : Message} {r : SearchRecord} (h : searchRecordOf md pid msg = some r) :
    r.id = msg.id ∧ r.url = (pid msg.id).getD "" ++ "#" ++ toString msg.id ∧
      msg.content.trim ≠ "" := by
  unfold searchRecordOf at h
  by_cases ht : msg.content.trim = ""
  · rw [if_pos ht] at h
    exact absurd h (by simp)
  · rw [if_neg ht] at h
    have := Option.some.inj h
    refine ⟨?_, ?_, ht⟩
    · rw [← this]
    · rw [← this]

theorem searchRecordOf_match_id (md : String → String) (pid : Nat → Option String)
    (mid : Nat) (x : Message) :
    ((searchRecordOf md pid x).map (fun y => decide (y.id = mid))).getD false
      = ((!(decide (x.content.trim = ""))) && decide (x.id = mid)) := by
  unfold searchRecordOf
  by_cases ht : x.content.trim = ""
  · rw [if_pos ht]
    simp [ht]
  · rw [if_neg ht]
    simp [ht]

end TgArchive

namespace TgArchive

/-!  The bounded feed window (`deque(maxlen=cap)`). -/

theorem lastWindow_length_le (cap : Nat) (l : List Message) :
    (lastWindow cap l).length ≤ cap := by
  rw [lastWindow, List.length_drop]
  omega

theorem lastWindow_reverse (cap : Nat) (l : List Message) :
    (lastWindow cap l).reverse = l.reverse.take cap := by
  rw [lastWindow, List.reverse_drop]
  by_cases hc : cap ≤ l.length
  · have : l.length - (l.length - cap) = cap := by omega
    rw [this]
  · have h1 : l.length - (l.length - cap) = l.length := by omega
    rw [h1, ← List.length_reverse l, List.take_length,
      List.take_of_length_le (by rw [List.length_reverse]; omega)]

theorem take_append_take {α : Type} (n m : Nat) (u v : List α) (h : n ≤ m) :
    List.take n (u ++ v.take m) = List.take n (u ++ v) := by
  rw [List.take_append_eq_append_take, List.take_append_eq_append_take, List.take_take]
  have : (n - u.length) ⊓ m = n - u.length := by omega
  rw [this]

theorem lastWindow_lastWindow_append (cap : Nat) (x y : List Message) :
    lastWindow cap (lastWindow cap x ++ y) = lastWindow cap (x ++ y) := by
  apply List.reverse_injective
  rw [lastWindow_reverse, lastWindow_reverse, List.reverse_append, List.reverse_append,
    lastWindow_reverse]
  exact take_append_take cap cap y.reverse x.reverse (Nat.le_refl cap)

theorem foldl_dequeExtend (cap : Nat) :
    ∀ (batches : List (List Message)) (w : List Message),
      batches.foldl (dequeExtend cap) (lastWindow cap w)
        = lastWindow cap (w ++ batches.flatten) := by
  intro batches
  induction batches with
  | nil => intro w; rw [List.flatten_nil, List.append_nil]; rfl
  | cons b bs ih =>
    intro w
    show bs.foldl (dequeExtend cap) (dequeExtend cap (lastWindow cap w) b)
        = lastWindow cap (w ++ (b ++ bs.flatten))
    rw [show dequeExtend cap (lastWindow cap w) b = lastWindow cap (w ++ b) by
      rw [dequeExtend, lastWindow_lastWindow_append]]
    rw [ih (w ++ b), List.append_assoc]

theorem feedAccum_eq_lastWindow (cap : Nat) (batches : List (List Message)) :
    feedAccum cap batches = lastWindow cap batches.flatten := by
  have h0 : ([] : List Message) = lastWindow cap [] := by
    simp [lastWindow]
  rw [feedAccum, h0, foldl_dequeExtend, List.nil_append]

end TgArchive

namespace TelegramFormatter

/-!  On text containing no marker and no HTML-special characters every pass of
`convert` is the identity. -/

theorem escapeList_id : ∀ {l : List Char},
    (∀ c ∈ l, c ≠ '&' ∧ c ≠ '<' ∧ c ≠ '>' ∧ c ≠ '"' ∧ c ≠ '\'') →
    escapeList l = l := by
  intro l
  induction l with
  | nil => intro _; rfl
  | cons c cs ih =>
    intro h
    have hc := h c (List.mem_cons_self c cs)
    show (if c = '&' then "&amp;".data
        else if c = '<' then "&lt;".data
        else if c = '>' then "&gt;".data
        else if c = '"' then "&quot;".data
        else if c = '\'' then "&#x27;".data
        else [c]) ++ escapeList cs = c :: cs
    rw [if_neg hc.1, if_neg hc.2.1, if_neg hc.2.2.1, if_neg hc.2.2.2.1, if_neg hc.2.2.2.2,
      List.singleton_append, ih (fun x hx => h x (List.mem_cons_of_mem c hx))]

theorem subPairGo_none_id (m : Char) (noNl nonEmpty : Bool) (lw rw : List Char) :
    ∀ {l : List Char}, (∀ c ∈ l, c ≠ m) →
      subPairGo m noNl nonEmpty lw rw none l = l := by
  intro l
  induction l with
  | nil => intro _; rfl
  | cons c cs ih =>
    intro h
    show (if c = m then subPairGo m noNl nonEmpty lw rw (some []) cs
        else c :: subPairGo m noNl nonEmpty lw rw none cs) = c :: cs
    rw [if_neg (h c (List.mem_cons_self c cs)),
      ih (fun x hx => h x (List.mem_cons_of_mem c hx))]

theorem subUUGo_none_id : ∀ {l : List Char},
    (∀ c ∈ l, c ≠ '_') → subUUGo none l = l := by
  intro l
  induction l with
  | nil => intro _; rfl
  | cons c cs ih =>
    intro h
    cases cs with
    | nil => rfl
    | cons c2 rest =>
      show (if c = '_' ∧ c2 = '_' then subUUGo (some []) rest
          else c :: subUUGo none (c2 :: rest)) = c :: c2 :: rest
      rw [if_neg (fun hand => h c (List.mem_cons_self c _) hand.1),
        ih (fun x hx => h x (List.mem_cons_of_mem c hx))]

theorem convert_id {s : String}
    (h : ∀ c ∈ s.data, c ≠ '*' ∧ c ≠ '_' ∧ c ≠ '~' ∧ c ≠ '`' ∧
      c ≠ '&' ∧ c ≠ '<' ∧ c ≠ '>' ∧ c ≠ '"' ∧ c ≠ '\'') :
    convert s = s := by
  by_cases hs : s = ""
  · rw [hs]
    rfl
  · rw [convert, if_neg hs]
    show String.mk
        (subPairGo '`' false true "`".data "`".data none
          (subPairGo '~' true false "~~".data "~~".data none
            (subPairGo '_' true false "*".data "*".data none
              (subPairGo '*' true false "**".data "**".data none
                (subUUGo none (escapeList s.data)))))) = s
    rw [escapeList_id (fun c hc => ⟨(h c hc).2.2.2.2.1, (h c hc).2.2.2.2.2.1,
        (h c hc).2.2.2.2.2.2.1, (h c hc).2.2.2.2.2.2.2.1, (h c hc).2.2.2.2.2.2.2.2⟩),
      subUUGo_none_id (fun c hc => (h c hc).2.1),
      subPairGo_none_id _ _ _ _ _ (fun c hc => (h c hc).1),
      subPairGo_none_id _ _ _ _ _ (fun c hc => (h c hc).2.1),
      subPairGo_none_id _ _ _ _ _ (fun c hc => (h c hc).2.2.1),
      subPairGo_none_id _ _ _ _ _ (fun c hc => (h c hc).2.2.2.1)]

end TelegramFormatter

namespace TgArchive

/-!  The `</body>` injection. -/

theorem bodyTag_cons : bodyTag = '<' :: "/body>".data := rfl

theorem isPrefixOf_bodyTag_false {c : Char} {rest : List Char} (hc : c ≠ '<') :
    bodyTag.isPrefixOf (c :: rest) = false := by
  cases hb : bodyTag.isPrefixOf (c :: rest) with
  | false => rfl
  | true =>
    exfalso
    have := List.isPrefixOf_iff_prefix.mp hb
    rw [bodyTag_cons] at this
    obtain ⟨t, ht⟩ := this
    rw [List.cons_append] at ht
    injection ht with h1 _
    exact hc h1.symm

theorem occursBody_eq_false_of_no_lt : ∀ {l : List Char}, '<' ∉ l → occursBody l = false := by
  intro l
  induction l with
  | nil => intro _; rfl
  | cons c rest ih =>
    intro h
    show (bodyTag.isPrefixOf (c :: rest) || occursBody rest) = false
    rw [isPrefixOf_bodyTag_false (fun hc => h (hc ▸ List.mem_cons_self c rest)),
      ih (fun hm => h (List.mem_cons_of_mem c hm)), Bool.or_self]

theorem occursBody_append_tag : ∀ (u v : List Char), occursBody (u ++ (bodyTag ++ v)) = true := by
  intro u
  induction u with
  | nil =>
    intro v
    rw [List.nil_append]
    show occursBody ('<' :: ("/body>".data ++ v)) = true
    show (bodyTag.isPrefixOf ('<' :: ("/body>".data ++ v)) || _) = true
    have : bodyTag.isPrefixOf ('<' :: ("/body>".data ++ v)) = true := by
      rw [List.isPrefixOf_iff_prefix, bodyTag_cons]
      exact ⟨v, by rw [List.cons_append]⟩
    rw [this, Bool.true_or]
  | cons c u ih =>
    intro v
    rw [List.cons_append]
    show (bodyTag.isPrefixOf (c :: (u ++ (bodyTag ++ v))) || occursBody (u ++ (bodyTag ++ v))) = true
    rw [ih v, Bool.or_true]

theorem replBody_nil (new : List Char) : replBody new [] = [] := by
  conv_lhs => unfold replBody

theorem replBody_cons (new : List Char) (c : Char) (rest : List Char) :
    replBody new (c :: rest)
      = if bodyTag.isPrefixOf (c :: rest) then new ++ replBody new (rest.drop 6)
        else c :: replBody new rest := by
  conv_lhs => unfold replBody

theorem replBody_no_occurs (new : List Char) :
    ∀ {l : List Char}, occursBody l = false → replBody new l = l := by
  intro l
  induction l with
  | nil => intro _; exact replBody_nil new
  | cons c rest ih =>
    intro h
    have h' : bodyTag.isPrefixOf (c :: rest) = false ∧ occursBody rest = false := by
      have : (bodyTag.isPrefixOf (c :: rest) || occursBody rest) = false := h
      exact Bool.or_eq_false_iff.mp this
    rw [replBody_cons, if_neg (by simp [h'.1]), ih h'.2]

theorem replBody_tag_cons (new v : List Char) :
    replBody new (bodyTag ++ v) = new ++ replBody new v := by
  have hpre : bodyTag.isPrefixOf ('<' :: ("/body>".data ++ v)) = true := by
    rw [List.isPrefixOf_iff_prefix]
    exact ⟨v, by rw [bodyTag_cons, List.cons_append]⟩
  rw [bodyTag_cons, List.cons_append, replBody_cons, if_pos hpre]
  have hd : List.drop 6 ("/body>".data ++ v) = v := by
    rw [show (6 : Nat) = ("/body>".data).length from rfl]
    exact List.drop_left _ _
  rw [hd]

theorem replBody_step (new : List Char) :
    ∀ {u : List Char} (v : List Char), '<' ∉ u →
      replBody new (u ++ (bodyTag ++ v)) = u ++ (new ++ replBody new v) := by
  intro u
  induction u with
  | nil =>
    intro v _
    rw [List.nil_append, List.nil_append]
    exact replBody_tag_cons new v
  | cons c u ih =>
    intro v h
    rw [List.cons_append, replBody_cons,
      if_neg (by simp [isPrefixOf_bodyTag_false (fun hc => h (hc ▸ List.mem_cons_self c u))]),
      ih v (fun hm => h (List.mem_cons_of_mem c hm)), List.cons_append]

end TgArchive

namespace TgArchive

theorem scanMonthLoop_pages_sorted {pp : Nat} {mo : Month}
    (hs : List.Pairwise IdLt mo.msgs) :
    ∀ (fuel lastId page : Nat) (pg : String × List Message),
      pg ∈ scanMonthLoop pp mo fuel lastId page → List.Pairwise IdLt pg.2 := by
  intro fuel
  induction fuel with
  | zero => intro _ _ pg hpg; cases hpg
  | succ fuel ih =>
    intro lastId page pg hpg
    have hsorted : List.Pairwise IdLt (getMessages mo.msgs lastId pp) := by
      unfold getMessages
      exact List.Pairwise.sublist (List.take_sublist _ _) (List.Pairwise.filter _ hs)
    have hunfold : scanMonthLoop pp mo (fuel + 1) lastId page
        = if (getMessages mo.msgs lastId pp).isEmpty then []
          else
            (makeFilename mo (page + 1), sortById (getMessages mo.msgs lastId pp)) ::
              scanMonthLoop pp mo fuel
                ((sortById (getMessages mo.msgs lastId pp)).getLastD default).id (page + 1) := rfl
    rw [hunfold] at hpg
    by_cases hE : (getMessages mo.msgs lastId pp).isEmpty
    · rw [if_pos hE] at hpg
      cases hpg
    · rw [if_neg hE] at hpg
      rcases List.mem_cons.mp hpg with rfl | hmem
      · show List.Pairwise IdLt (sortById (getMessages mo.msgs lastId pp))
        rw [sortById_of_sorted hsorted]
        exact hsorted
      · exact ih _ _ pg hmem

end TgArchive

namespace TgArchive

/-!  ## The claims -/

/-- C1: for every non-empty archive (all buckets satisfying the store
contract, globally unique ids) and positive `per_page`, every message identity
returned by the store appears in exactly one rendered page across the run, and
the `page_ids` entry recorded for it by the resolution pass
(`Build._scan_timeline`) is the filename of that page. -/
theorem claim_C1 (pp : Nat) (tl : List Month) (hpp : 0 < pp) (hne : tl ≠ [])
    (htl : ∀ mo ∈ tl, MonthOk mo) (hnd : ((storeMsgs tl).map Message.id).Nodup) :
    ∀ m ∈ storeMsgs tl,
      (renderAllPages pp tl).countP (fun pg => decide (m.id ∈ pg.2.map Message.id)) = 1 ∧
      ∀ pg ∈ renderAllPages pp tl, m.id ∈ pg.2.map Message.id →
        (scanTimelineMaps pp tl).1 m.id = some pg.1 := by
  intro m hm
  rw [renderAllPages_eq_scan]
  exact ⟨scanAllPages_countP_id htl hpp hnd hm,
    fun pg hpg hmid => scanTimelineMaps_pageIds_lookup htl hpp hnd hm hpg hmid⟩

/-- Witness for C1 on the concrete two-bucket timeline. -/
theorem claim_C1_witness :
    (0 < 2 ∧ exTimeline ≠ [] ∧ (∀ mo ∈ exTimeline, MonthOk mo) ∧
      ((storeMsgs exTimeline).map Message.id).Nodup ∧
      exMsg 3 "three" "2024-01-02" ∈ storeMsgs exTimeline) ∧
    ((renderAllPages 2 exTimeline).countP
        (fun pg => decide ((exMsg 3 "three" "2024-01-02").id ∈ pg.2.map Message.id)) = 1 ∧
      ∀ pg ∈ renderAllPages 2 exTimeline,
        (exMsg 3 "three" "2024-01-02").id ∈ pg.2.map Message.id →
          (scanTimelineMaps 2 exTimeline).1 (exMsg 3 "three" "2024-01-02").id = some pg.1) :=
  ⟨⟨by decide, by decide, by decide, by decide, by decide⟩,
    claim_C1 2 exTimeline (by decide) (by decide) (by decide) (by decide) _ (by decide)⟩

/-- C2: for every bucket and page size, the render pass (`Build.build`) and the
resolution pass (`Build._scan_timeline`) produce identical page boundaries and
identical per-page order; under the store's ascending-identity contract the
unsorted `build1.py` traversal (`Build._collect_page_ids`) agrees as well, and
every page's messages are in strictly ascending identity order. -/
theorem claim_C2 (pp : Nat) (mo : Month) :
    renderMonthPages pp mo = scanMonthPages pp mo ∧
    (List.Pairwise IdLt mo.msgs →
      collectMonthPages pp mo = scanMonthPages pp mo ∧
      ∀ pg ∈ scanMonthPages pp mo, List.Pairwise IdLt pg.2) := by
  refine ⟨renderMonthPages_eq_scan pp mo, fun hs => ⟨collectMonthPages_eq_scan hs, ?_⟩⟩
  intro pg hpg
  exact scanMonthLoop_pages_sorted hs _ 0 0 pg hpg

/-- Witness for C2 on the concrete five-message bucket. -/
theorem claim_C2_witness :
    (renderMonthPages 2 exMonth5 = scanMonthPages 2 exMonth5) ∧
    (List.Pairwise IdLt exMonth5.msgs ∧
      collectMonthPages 2 exMonth5 = scanMonthPages 2 exMonth5) :=
  ⟨(claim_C2 2 exMonth5).1, ⟨by decide, ((claim_C2 2 exMonth5).2 (by decide)).1⟩⟩

/-- C3: with `per_page = 2` and the bucket with slug `"slug"` holding
identities `[1,2,3,4,5]`, the render pass produces exactly three pages holding
`\x7b1,2\x7d`, `\x7b3,4\x7d`, `\x7b5\x7d` with filenames `slug.html`,
`slug_2.html`, `slug_3.html`, matching the `make_filename` derivation. -/
theorem claim_C3 :
    (renderMonthPages 2 exMonth5).map (fun pg => (pg.1, pg.2.map Message.id))
      = [("slug.html", [1, 2]), ("slug_2.html", [3, 4]), ("slug_3.html", [5])] ∧
    makeFilename exMonth5 1 = "slug.html" ∧
    makeFilename exMonth5 2 = "slug_2.html" ∧
    makeFilename exMonth5 3 = "slug_3.html" := by
  decide

end TgArchive

namespace TgArchive

/-- C4 (divergence evaluation): at the failing input — an existing publish
directory resolving to the filesystem root — build.py's
`Build._create_publish_dir` deletes the directory recursively and proceeds
without raising anything, while build1.py's revision raises the configuration
error before any deletion, as the claim requires. -/
theorem claim_C4_eval :
    createPublishDirV2 "/" true = Except.ok [FsOp.rmtree "/", FsOp.mkdir "/"] ∧
    createPublishDirV1 "/" "/root" true
      = Except.error "Refusing to delete dangerous directory: /" ∧
    createPublishDirV1 "/home/user/site" "/root" true
      = Except.ok [FsOp.rmtree "/home/user/site", FsOp.mkdir "/home/user/site"] := by
  refine ⟨rfl, ?_, ?_⟩
  · rw [createPublishDirV1, if_pos (Or.inl rfl)]
    rfl
  · rw [createPublishDirV1, if_neg (by simp)]
    rfl

/-- C5 counterexample: a message whose markup rendering fails does *not* get
its raw text newline-escaped — the fallback operates on the text already
rebound to the Telegram-converted (HTML-escaped) form, so `"a&b\nc"` comes
back as `"a&amp;b<br>c"`, not `"a&b<br>c"`. -/
theorem claim_C5_counterexample :
    markdownWith (fun _ => none) "a&b\nc" = "a&amp;b<br>c" ∧
    ("a&amp;b<br>c" : String) ≠ "a&b<br>c" := by
  decide

/-- C5 as amended: when the external renderer fails on a non-empty message,
`Build._markdown` returns the *Telegram-converted* text with every newline
replaced by a literal `<br>` instead of propagating the exception, and the
per-message rendering of a page is independent across messages, so only the
failing message's HTML is affected. -/
theorem claim_C5_amended (md : String → Option String) (text : String)
    (hne : text ≠ "") (hfail : md (TelegramFormatter.convert text) = none) :
    markdownWith md text = String.mk (replaceNl (TelegramFormatter.convert text).data) ∧
    ∀ (pre post : List Message) (m : Message),
      renderContents md (pre ++ m :: post)
        = renderContents md pre ++ markdownWith md m.content :: renderContents md post := by
  constructor
  · rw [markdownWith, if_neg hne]
    show (match md (TelegramFormatter.convert text) with
      | some h => h
      | none => String.mk (replaceNl (TelegramFormatter.convert text).data)) = _
    rw [hfail]
  · intro pre post m
    rw [renderContents, renderContents, renderContents, List.map_append, List.map_cons]

/-- Witness for the amended C5 at a failing renderer and concrete text. -/
theorem claim_C5_witness :
    (("x\ny" : String) ≠ "" ∧
      (fun (_ : String) => (none : Option String)) (TelegramFormatter.convert "x\ny") = none) ∧
    markdownWith (fun _ => none) "x\ny"
      = String.mk (replaceNl (TelegramFormatter.convert "x\ny").data) :=
  ⟨⟨by decide, rfl⟩, (claim_C5_amended (fun _ => none) "x\ny" (by decide) rfl).1⟩

/-- C6: a message contributes to `search.json` exactly when its trimmed
content is non-empty — exactly one record then carries its identity — and that
record's `url` is the resolved `page_ids` filename followed by `"#"` and the
identity. -/
theorem claim_C6 (pp : Nat) (tl : List Month) (md : String → String) (hpp : 0 < pp)
    (htl : ∀ mo ∈ tl, MonthOk mo) (hnd : ((storeMsgs tl).map Message.id).Nodup) :
    ∀ m ∈ storeMsgs tl,
      (buildSearchIndex md (scanTimelineMaps pp tl).1 pp tl).countP
          (fun r => decide (r.id = m.id))
        = (if m.content.trim = "" then 0 else 1) ∧
      ∀ r ∈ buildSearchIndex md (scanTimelineMaps pp tl).1 pp tl, r.id = m.id →
        ∃ f, (scanTimelineMaps pp tl).1 m.id = some f ∧
          r.url = f ++ "#" ++ toString m.id := by
  intro m hm
  constructor
  · rw [buildSearchIndex_eq_filterMap htl hpp, countP_filterMap']
    have hcnt : (storeMsgs tl).countP
        (fun x => (((searchRecordOf md (scanTimelineMaps pp tl).1 x).map
          (fun y => decide (y.id = m.id))).getD false))
        = (storeMsgs tl).countP
            (fun x => (!(decide (x.content.trim = ""))) && decide (x.id = m.id)) :=
      List.countP_congr
        (fun x _ => by rw [searchRecordOf_match_id md (scanTimelineMaps pp tl).1 m.id x])
    rw [hcnt, countP_id_unique (fun x => !(decide (x.content.trim = ""))) hnd hm]
    by_cases ht : m.content.trim = ""
    · simp [ht]
    · simp [ht]
  · intro r hr hid
    rw [buildSearchIndex_eq_filterMap htl hpp] at hr
    obtain ⟨x, hx, hxr⟩ := List.mem_filterMap.mp hr
    obtain ⟨hid', hurl, _⟩ := searchRecordOf_some hxr
    have hxm : x.id = m.id := by rw [← hid', hid]
    obtain ⟨pg, hpg, hmpg⟩ := mem_scanAllPages_of_mem_store htl hpp hm
    have hmid : m.id ∈ pg.2.map Message.id := List.mem_map_of_mem _ hmpg
    have hlook := scanTimelineMaps_pageIds_lookup htl hpp hnd hm hpg hmid
    refine ⟨pg.1, hlook, ?_⟩
    rw [hurl, hxm, hlook]
    rfl

/-- Witness for C6 on the concrete timeline. -/
theorem claim_C6_witness :
    (0 < 2 ∧ (∀ mo ∈ exTimeline, MonthOk mo) ∧
      ((storeMsgs exTimeline).map Message.id).Nodup ∧
      exMsg 2 "two" "2024-01-01" ∈ storeMsgs exTimeline) ∧
    (buildSearchIndex (fun s => s) (scanTimelineMaps 2 exTimeline).1 2 exTimeline).countP
        (fun r => decide (r.id = (exMsg 2 "two" "2024-01-01").id))
      = (if (exMsg 2 "two" "2024-01-01").content.trim = "" then 0 else 1) :=
  ⟨⟨by decide, by decide, by decide, by decide⟩,
    (claim_C6 2 exTimeline (fun s => s) (by decide) (by decide) (by decide) _ (by decide)).1⟩

/-- C7: at every point of the render pass the feed deque holds at most
`rss_feed_entries` messages (oldest evicted first), and at the end of the run
it holds exactly the most recently appended messages up to capacity — the
last-`cap` suffix of everything appended in render order. -/
theorem claim_C7 (pp cap : Nat) (tl : List Month) :
    (∀ i : Nat,
      (feedAccum cap (((renderAllPages pp tl).map (·.2)).take i)).length ≤ cap) ∧
    rssEntries pp cap tl = lastWindow cap ((renderAllPages pp tl).map (·.2)).flatten := by
  constructor
  · intro i
    rw [feedAccum_eq_lastWindow]
    exact lastWindow_length_le _ _
  · rw [rssEntries, feedAccum_eq_lastWindow]

end TgArchive

namespace TgArchive

/-!  General `str.replace` characterization: `"</body>"` has no proper border
(no proper suffix of it is one of its prefixes), so occurrences cannot overlap
a tag-free prefix, and replacing rewrites exactly the separators between the
tag-free segments of the page — however many there are. -/

theorem bodyTag_no_border :
    ∀ k : Nat, 0 < k → k < 7 → bodyTag.drop k ≠ bodyTag.take (7 - k) := by
  intro k h1 h2
  interval_cases k <;> decide

theorem prefix_of_append_of_length_le {α : Type} {l u w : List α}
    (h : l <+: u ++ w) (hl : l.length ≤ u.length) : l <+: u := by
  obtain ⟨t, ht⟩ := h
  have h1 : l = List.take l.length (u ++ w) := by
    have := congrArg (List.take l.length) ht
    rw [List.take_append_eq_append_take, List.take_length, Nat.sub_self, List.take_zero,
      List.append_nil] at this
    exact this
  have h2 : l = List.take l.length u := by
    conv_lhs => rw [h1]
    rw [List.take_append_eq_append_take, Nat.sub_eq_zero_of_le hl, List.take_zero,
      List.append_nil]
  have := List.take_prefix l.length u
  rwa [← h2] at this

theorem isPrefixOf_append_tag_false {c : Char} {u v : List Char}
    (h : bodyTag.isPrefixOf (c :: u) = false) :
    bodyTag.isPrefixOf ((c :: u) ++ (bodyTag ++ v)) = false := by
  cases hb : bodyTag.isPrefixOf ((c :: u) ++ (bodyTag ++ v)) with
  | false => rfl
  | true =>
    exfalso
    have hpre := List.isPrefixOf_iff_prefix.mp hb
    by_cases hlen : bodyTag.length ≤ (c :: u).length
    · have hp2 : bodyTag <+: (c :: u) := prefix_of_append_of_length_le hpre hlen
      rw [← List.isPrefixOf_iff_prefix] at hp2
      rw [hp2] at h
      cases h
    · obtain ⟨t, ht⟩ := hpre
      have h7 : bodyTag.length = 7 := rfl
      have hk1 : 0 < (c :: u).length := by simp
      have hk7 : (c :: u).length < 7 := by omega
      have hdrop := congrArg (List.drop (c :: u).length) ht
      rw [List.drop_append_eq_append_drop, List.drop_append_eq_append_drop] at hdrop
      have d1 : (c :: u).length - bodyTag.length = 0 := by
        rw [h7]
        omega
      rw [d1, List.drop_zero, List.drop_length, Nat.sub_self, List.drop_zero,
        List.nil_append] at hdrop
      have htake := congrArg (List.take (7 - (c :: u).length)) hdrop
      rw [List.take_append_eq_append_take, List.take_append_eq_append_take] at htake
      have e4 : (List.drop (c :: u).length bodyTag).length = 7 - (c :: u).length := by
        rw [List.length_drop, h7]
      have e5 : (7 - (c :: u).length) - (List.drop (c :: u).length bodyTag).length = 0 := by
        rw [e4]
        omega
      have e6 : List.take (7 - (c :: u).length) (List.drop (c :: u).length bodyTag)
          = List.drop (c :: u).length bodyTag :=
        List.take_of_length_le (le_of_eq e4)
      have e7 : (7 - (c :: u).length) - bodyTag.length = 0 := by
        rw [h7]
        omega
      rw [e5, List.take_zero, List.append_nil, e6, e7, List.take_zero, List.append_nil] at htake
      exact bodyTag_no_border (c :: u).length hk1 hk7 htake

theorem replBody_step_gen (new : List Char) :
    ∀ {u : List Char} (v : List Char), occursBody u = false →
      replBody new (u ++ (bodyTag ++ v)) = u ++ (new ++ replBody new v) := by
  intro u
  induction u with
  | nil =>
    intro v _
    rw [List.nil_append, List.nil_append]
    exact replBody_tag_cons new v
  | cons c u ih =>
    intro v h
    have h' : bodyTag.isPrefixOf (c :: u) = false ∧ occursBody u = false :=
      Bool.or_eq_false_iff.mp h
    have hp : bodyTag.isPrefixOf (c :: (u ++ (bodyTag ++ v))) = false := by
      rw [← List.cons_append]
      exact isPrefixOf_append_tag_false h'.1
    rw [List.cons_append, replBody_cons, if_neg (by simp [hp]), ih v h'.2, List.cons_append]

theorem intercalate_nil {α : Type} (sep : List α) :
    List.intercalate sep ([] : List (List α)) = [] := rfl

theorem intercalate_single {α : Type} (sep a : List α) :
    List.intercalate sep [a] = a := by
  simp [List.intercalate, List.intersperse]

theorem intercalate_cons₂ {α : Type} (sep a b : List α) (l : List (List α)) :
    List.intercalate sep (a :: b :: l) = a ++ (sep ++ List.intercalate sep (b :: l)) := by
  simp [List.intercalate, List.intersperse]

theorem intercalate_cons_head {α : Type} (sep : List α) (c : α) (s : List α)
    (ss : List (List α)) :
    List.intercalate sep ((c :: s) :: ss) = c :: List.intercalate sep (s :: ss) := by
  cases ss with
  | nil => rw [intercalate_single, intercalate_single]
  | cons b ss' => rw [intercalate_cons₂, intercalate_cons₂, List.cons_append]

theorem splitBody_nil : splitBody [] = [[]] := by
  conv_lhs => unfold splitBody

theorem splitBody_cons_pos {c : Char} {rest : List Char}
    (h : bodyTag.isPrefixOf (c :: rest) = true) :
    splitBody (c :: rest) = [] :: splitBody (rest.drop 6) := by
  conv_lhs => unfold splitBody
  rw [if_pos h]

theorem splitBody_cons_neg {c : Char} {rest : List Char} {s : List Char}
    {ss : List (List Char)} (h : bodyTag.isPrefixOf (c :: rest) = false)
    (hs : splitBody rest = s :: ss) :
    splitBody (c :: rest) = (c :: s) :: ss := by
  conv_lhs => unfold splitBody
  rw [if_neg (by simp [h]), hs]

theorem splitBody_ne_nil : ∀ (l : List Char), splitBody l ≠ [] := by
  intro l
  cases l with
  | nil =>
    rw [splitBody_nil]
    simp
  | cons c rest =>
    cases hb : bodyTag.isPrefixOf (c :: rest) with
    | true =>
      rw [splitBody_cons_pos hb]
      simp
    | false =>
      cases hs : splitBody rest with
      | nil =>
        conv_lhs => unfold splitBody
        rw [if_neg (by simp [hb]), hs]
        simp
      | cons s ss =>
        rw [splitBody_cons_neg hb hs]
        simp

theorem splitBody_head_prefix :
    ∀ (n : Nat) (l : List Char), l.length ≤ n →
      ∀ (s : List Char) (ss : List (List Char)), splitBody l = s :: ss → s <+: l := by
  intro n
  induction n with
  | zero =>
    intro l hl s ss hsp
    have : l = [] := List.length_eq_zero.mp (Nat.le_zero.mp hl)
    rw [this] at hsp ⊢
    rw [splitBody_nil] at hsp
    injection hsp with h1 _
    rw [← h1]
  | succ n ih =>
    intro l hl s ss hsp
    cases l with
    | nil =>
      rw [splitBody_nil] at hsp
      injection hsp with h1 _
      rw [← h1]
    | cons c rest =>
      cases hb : bodyTag.isPrefixOf (c :: rest) with
      | true =>
        rw [splitBody_cons_pos hb] at hsp
        injection hsp with h1 _
        rw [← h1]
        exact List.nil_prefix
      | false =>
        obtain ⟨s', ss', hs'⟩ : ∃ s' ss', splitBody rest = s' :: ss' := by
          cases hx : splitBody rest with
          | nil => exact absurd hx (splitBody_ne_nil rest)
          | cons a as => exact ⟨a, as, rfl⟩
        rw [splitBody_cons_neg hb hs'] at hsp
        injection hsp with h1 _
        rw [← h1]
        exact List.cons_prefix_cons.mpr
          ⟨rfl, ih rest (by simp at hl; omega) s' ss' hs'⟩

theorem splitBody_intercalate :
    ∀ (n : Nat) (l : List Char), l.length ≤ n →
      List.intercalate bodyTag (splitBody l) = l := by
  intro n
  induction n with
  | zero =>
    intro l hl
    have : l = [] := List.length_eq_zero.mp (Nat.le_zero.mp hl)
    rw [this, splitBody_nil, intercalate_single]
  | succ n ih =>
    intro l hl
    cases l with
    | nil => rw [splitBody_nil, intercalate_single]
    | cons c rest =>
      cases hb : bodyTag.isPrefixOf (c :: rest) with
      | true =>
        rw [splitBody_cons_pos hb]
        obtain ⟨s, ss, hs⟩ : ∃ s ss, splitBody (rest.drop 6) = s :: ss := by
          cases hx : splitBody (rest.drop 6) with
          | nil => exact absurd hx (splitBody_ne_nil _)
          | cons a as => exact ⟨a, as, rfl⟩
        rw [hs, intercalate_cons₂, ← hs, List.nil_append]
        have hlen : (rest.drop 6).length ≤ n := by
          rw [List.length_drop]
          simp at hl
          omega
        rw [ih (rest.drop 6) hlen]
        obtain ⟨t, ht⟩ := List.isPrefixOf_iff_prefix.mp hb
        have htd : t = rest.drop 6 := by
          have := congrArg (List.drop 7) ht
          rw [show (7 : Nat) = bodyTag.length from rfl, List.drop_left] at this
          rw [this, show bodyTag.length = 6 + 1 from rfl, List.drop_succ_cons]
        rw [← htd]
        exact ht
      | false =>
        obtain ⟨s, ss, hs⟩ : ∃ s ss, splitBody rest = s :: ss := by
          cases hx : splitBody rest with
          | nil => exact absurd hx (splitBody_ne_nil rest)
          | cons a as => exact ⟨a, as, rfl⟩
        rw [splitBody_cons_neg hb hs, intercalate_cons_head, ← hs,
          ih rest (by simp at hl; omega)]

theorem splitBody_no_occurs :
    ∀ (n : Nat) (l : List Char), l.length ≤ n →
      ∀ s ∈ splitBody l, occursBody s = false := by
  intro n
  induction n with
  | zero =>
    intro l hl s hs
    have : l = [] := List.length_eq_zero.mp (Nat.le_zero.mp hl)
    rw [this, splitBody_nil] at hs
    rw [List.mem_singleton.mp hs]
    rfl
  | succ n ih =>
    intro l hl s hs
    cases l with
    | nil =>
      rw [splitBody_nil] at hs
      rw [List.mem_singleton.mp hs]
      rfl
    | cons c rest =>
      cases hb : bodyTag.isPrefixOf (c :: rest) with
      | true =>
        rw [splitBody_cons_pos hb] at hs
        rcases List.mem_cons.mp hs with rfl | hmem
        · rfl
        · have hlen : (rest.drop 6).length ≤ n := by
            rw [List.length_drop]
            simp at hl
            omega
          exact ih (rest.drop 6) hlen s hmem
      | false =>
        obtain ⟨s', ss', hs'⟩ : ∃ s' ss', splitBody rest = s' :: ss' := by
          cases hx : splitBody rest with
          | nil => exact absurd hx (splitBody_ne_nil rest)
          | cons a as => exact ⟨a, as, rfl⟩
        have hrl : rest.length ≤ n := by simp at hl; omega
        rw [splitBody_cons_neg hb hs'] at hs
        rcases List.mem_cons.mp hs with rfl | hmem
        · show (bodyTag.isPrefixOf (c :: s') || occursBody s') = false
          have hso : occursBody s' = false :=
            ih rest hrl s' (hs' ▸ List.mem_cons_self s' ss')
          have hpre : bodyTag.isPrefixOf (c :: s') = false := by
            cases hq : bodyTag.isPrefixOf (c :: s') with
            | false => rfl
            | true =>
              exfalso
              have h1 : (c :: s') <+: (c :: rest) :=
                List.cons_prefix_cons.mpr
                  ⟨rfl, splitBody_head_prefix rest.length rest (Nat.le_refl _) s' ss' hs'⟩
              have h2 : bodyTag <+: (c :: rest) :=
                (List.isPrefixOf_iff_prefix.mp hq).trans h1
              rw [← List.isPrefixOf_iff_prefix] at h2
              rw [h2] at hb
              cases hb
          rw [hso, hpre]
          rfl
        · exact ih rest hrl s (hs' ▸ List.mem_cons_of_mem s' hmem)

theorem splitBody_two_le :
    ∀ (n : Nat) (l : List Char), l.length ≤ n → occursBody l = true →
      2 ≤ (splitBody l).length := by
  intro n
  induction n with
  | zero =>
    intro l hl ho
    have : l = [] := List.length_eq_zero.mp (Nat.le_zero.mp hl)
    rw [this] at ho
    cases ho
  | succ n ih =>
    intro l hl ho
    cases l with
    | nil => cases ho
    | cons c rest =>
      cases hb : bodyTag.isPrefixOf (c :: rest) with
      | true =>
        rw [splitBody_cons_pos hb]
        have := List.length_pos.mpr (splitBody_ne_nil (rest.drop 6))
        simp
        omega
      | false =>
        have ho' : occursBody rest = true := by
          have : (bodyTag.isPrefixOf (c :: rest) || occursBody rest) = true := ho
          rw [hb] at this
          simpa using this
        have hrl : rest.length ≤ n := by simp at hl; omega
        obtain ⟨s', ss', hs'⟩ : ∃ s' ss', splitBody rest = s' :: ss' := by
          cases hx : splitBody rest with
          | nil => exact absurd hx (splitBody_ne_nil rest)
          | cons a as => exact ⟨a, as, rfl⟩
        have h2 := ih rest hrl ho'
        rw [hs'] at h2
        rw [splitBody_cons_neg hb hs']
        simpa using h2

theorem replBody_intercalate (new : List Char) :
    ∀ (segs : List (List Char)), (∀ s ∈ segs, occursBody s = false) → segs ≠ [] →
      replBody new (List.intercalate bodyTag segs) = List.intercalate new segs := by
  intro segs
  induction segs with
  | nil => intro _ hne; exact absurd rfl hne
  | cons s rest ih =>
    intro hall _
    cases rest with
    | nil =>
      rw [intercalate_single, intercalate_single]
      exact replBody_no_occurs new (hall s (List.mem_cons_self s []))
    | cons b rest' =>
      rw [intercalate_cons₂, intercalate_cons₂,
        replBody_step_gen new _ (hall s (List.mem_cons_self s _)),
        ih (fun x hx => hall x (List.mem_cons_of_mem s hx)) (by simp)]

end TgArchive

namespace TgArchive

/-- C8: for every day slug, the `day_to_page` map built by the resolution pass
holds the filename attached to the *first* message of that day in encounter
order — first-writer-wins: a later page with messages of the same day never
overwrites the entry, and a slug never seen yields no entry. -/
theorem claim_C8 (pp : Nat) (tl : List Month) (s : String) :
    (scanTimelineMaps pp tl).2 s
      = ((allWrites pp tl).find? (fun w => decide (w.2.daySlug = s))).map (·.1) := by
  rw [scanTimelineMaps_eq_folds]
  show ((allWrites pp tl).foldl dayWriteStep (fun _ => none)) s = _
  rw [dayFold_lookup]

/-- C9 counterexample: `convert` is *not* idempotent on already-escaped plain
text — `"a&amp;b"` (the escaped form of `"a&b"`, containing no markers) is
re-escaped on every application. -/
theorem claim_C9_counterexample :
    TelegramFormatter.convert (TelegramFormatter.convert "a&amp;b")
      ≠ TelegramFormatter.convert "a&amp;b" := by
  decide

/-- C9 as amended: on plain text containing no marker characters
(`*`, `_`, `~`, backtick) *and no HTML-special characters* (`&`, `<`, `>`,
quote, apostrophe — so that the escape pass has nothing to re-escape),
`convert` is the identity, hence idempotent, and its output contains no stray
markup markers. -/
theorem claim_C9_amended (s : String)
    (h : ∀ c ∈ s.data, c ≠ '*' ∧ c ≠ '_' ∧ c ≠ '~' ∧ c ≠ '`' ∧
      c ≠ '&' ∧ c ≠ '<' ∧ c ≠ '>' ∧ c ≠ '"' ∧ c ≠ '\'') :
    TelegramFormatter.convert s = s ∧
    TelegramFormatter.convert (TelegramFormatter.convert s)
      = TelegramFormatter.convert s := by
  have h1 := TelegramFormatter.convert_id h
  exact ⟨h1, by rw [h1]; exact h1⟩

/-- Witness for the amended C9 on plain text. -/
theorem claim_C9_witness :
    (∀ c ∈ ("hello world" : String).data, c ≠ '*' ∧ c ≠ '_' ∧ c ≠ '~' ∧ c ≠ '`' ∧
      c ≠ '&' ∧ c ≠ '<' ∧ c ≠ '>' ∧ c ≠ '"' ∧ c ≠ '\'') ∧
    TelegramFormatter.convert "hello world" = "hello world" :=
  ⟨by decide, (claim_C9_amended "hello world" (by decide)).1⟩

/-- C10: a page without `"</body>"` is written unchanged (no search UI or CSS
fix).  A page containing the marker gets the fixed extras fragment inserted
before *every* occurrence, not only the final one: for every decomposition of
the page into `"</body>"`-free segments joined by the marker — and every such
page has one, with at least two segments — the output is the same segments
joined by `extras + "\n</body>"` instead. -/
theorem claim_C10 (html : String) :
    (occursBody html.data = false → injectExtras html = html) ∧
    (∀ segs : List (List Char), (∀ s ∈ segs, occursBody s = false) →
      html.data = List.intercalate bodyTag segs →
      injectExtras html = String.mk (List.intercalate injectedTail segs)) ∧
    (occursBody html.data = true →
      ∃ gs : List (List Char), (∀ s ∈ gs, occursBody s = false) ∧ 2 ≤ gs.length ∧
        html.data = List.intercalate bodyTag gs) := by
  refine ⟨?_, ?_, ?_⟩
  · intro hs
    rw [injectExtras, injectExtrasWith, if_neg (by simp [hs])]
  · intro segs hsegs hdec
    by_cases ho : occursBody html.data = true
    · have hne : segs ≠ [] := by
        intro hc
        rw [hc, intercalate_nil] at hdec
        rw [hdec] at ho
        cases ho
      rw [injectExtras, injectExtrasWith, if_pos ho, hdec,
        replBody_intercalate _ segs hsegs hne]
      rfl
    · rw [injectExtras, injectExtrasWith, if_neg (by simpa using ho)]
      cases segs with
      | nil =>
        rw [intercalate_nil] at hdec ⊢
        rw [← hdec]
      | cons s rest =>
        cases rest with
        | nil =>
          rw [intercalate_single] at hdec ⊢
          rw [← hdec]
        | cons b rest' =>
          exfalso
          rw [intercalate_cons₂] at hdec
          exact ho (hdec ▸ occursBody_append_tag s _)
  · intro ho
    exact ⟨splitBody html.data,
      splitBody_no_occurs html.data.length html.data (Nat.le_refl _),
      splitBody_two_le html.data.length html.data (Nat.le_refl _) ho,
      (splitBody_intercalate html.data.length html.data (Nat.le_refl _)).symm⟩

/-- Witness for C10: a realistic page with two marker occurrences and other
tags in every segment gets the fragment inserted before both occurrences;
the hypotheses of the decomposition conjunct are discharged concretely. -/
theorem claim_C10_witness :
    ((∀ s ∈ [("<p>a</p>" : String).data, ("<div>b</div>" : String).data,
        ("tail" : String).data], occursBody s = false) ∧
      ("<p>a</p></body><div>b</div></body>tail" : String).data
        = List.intercalate bodyTag
            [("<p>a</p>" : String).data, ("<div>b</div>" : String).data,
              ("tail" : String).data]) ∧
    injectExtras "<p>a</p></body><div>b</div></body>tail"
      = String.mk (List.intercalate injectedTail
          [("<p>a</p>" : String).data, ("<div>b</div>" : String).data,
            ("tail" : String).data]) :=
  ⟨⟨by decide, by decide⟩,
    (claim_C10 "<p>a</p></body><div>b</div></body>tail").2.1 _ (by decide) (by decide)⟩

end TgArchive
